import Mathlib

/-!
Verification development for the TFGCalculator alloy allocation engine.

The definitions below are a shallow embedding of the TypeScript source
(the algorithm module with full statistics and Fibonacci batch back-off).
JavaScript numbers that may be fractional (millibucket volumes, percentages,
timestamps) are modelled as `ℚ`; quantities and per-unit yields are `ℕ`
(the data model declares them non-negative integers).  JavaScript `Map`s
are modelled as association lists with JS insertion-order semantics.
`performance.now()` readings are passed in as explicit parameters.
Loops are modelled with explicit fuel so that every definition computes
by kernel reduction; each fuel argument is instantiated at a value proven
(or visibly) sufficient at the call site.
-/

namespace TFG

structure Mineral where
  name : String
  produces : String
  yield : ℕ
deriving DecidableEq, Repr

structure MineralWithQuantity where
  mineral : Mineral
  quantity : ℕ
deriving DecidableEq, Repr

structure AlloyComponent where
  mineral : String
  min : ℚ
  max : ℚ
deriving DecidableEq, Repr

structure Alloy where
  name : String
  components : List AlloyComponent
deriving DecidableEq, Repr

structure ComponentGenerationStats where
  runs : ℕ
  accepts : ℕ
  declines : ℕ
deriving DecidableEq, Repr

structure BatchStats where
  count : ℕ
  accepts : ℕ
  declines : ℕ
  scaleEfficiency : ℕ
  backtrackPotential : ℕ
deriving DecidableEq, Repr

structure UsageStats where
  memoryMB : ℚ
  runtimeMs : ℚ
deriving DecidableEq, Repr

structure Stats where
  generation : Option ComponentGenerationStats
  batch : Option BatchStats
  usage : Option UsageStats
deriving DecidableEq, Repr

structure AlloyProductionResult where
  outputMb : ℚ
  usedMinerals : List MineralWithQuantity
  success : Bool
  message : Option String
  stats : Option Stats
deriving DecidableEq, Repr

structure MineralState where
  minerals : List MineralWithQuantity
  index : ℕ
  mb : ℚ
deriving DecidableEq, Repr

structure CombinationResult where
  combinations : List (List MineralWithQuantity)
  stats : ComponentGenerationStats
deriving DecidableEq, Repr

/-- ASCII lower-casing, the computable counterpart of JS `toLowerCase`
on the ASCII strings this program works with (`String.toLower` itself
does not reduce in the kernel). -/
def strLower (s : String) : String := ⟨s.data.map Char.toLower⟩

/-- JS `Map.get`: first entry with the key. -/
def mapGet {α : Type} : List (String × α) → String → Option α
  | [], _ => none
  | (k, v) :: rest, key => if k = key then some v else mapGet rest key

/-- JS `Map.set`: update the entry in place if the key exists, else append. -/
def mapSet {α : Type} : List (String × α) → String → α → List (String × α)
  | [], key, v => [(key, v)]
  | (k, w) :: rest, key, v =>
      if k = key then (k, v) :: rest else (k, w) :: mapSet rest key v

/-- JS `Map.delete`: remove the entry with the key. -/
def mapDelete {α : Type} : List (String × α) → String → List (String × α)
  | [], _ => []
  | (k, w) :: rest, key => if k = key then rest else (k, w) :: mapDelete rest key

def INGOT_SIZE : ℕ := 144
def MAX_BATCH_INGOTS : ℕ := 8
def MAX_BATCH_MB : ℕ := MAX_BATCH_INGOTS * INGOT_SIZE

/-- Loop body of `generateReverseFibonacci`; the fuel bounds the iteration
count (`t` grows strictly each step, so `max + 1` iterations suffice). -/
def generateReverseFibonacciGo (max : ℕ) : ℕ → ℕ → ℕ → ℕ → List ℕ → List ℕ
  | 0, _, _, _, acc => acc
  | fuel + 1, t, _next, prev, acc =>
      if t ≤ max then generateReverseFibonacciGo max fuel (prev + t) prev t (acc ++ [t])
      else acc

def generateReverseFibonacci (max : ℕ) : List ℕ :=
  if max = 0 then []
  else (generateReverseFibonacciGo max (max + 1) 1 1 1 []).reverse

def BATCH_SIZE_FIBONACCI_SEQ : List ℕ := generateReverseFibonacci MAX_BATCH_INGOTS

/-- Insert a stock entry into a group before the first strictly
lower-yielding entry (the `findIndex`/`splice` in `groupAndSortMinerals`). -/
def insertByYield : List MineralWithQuantity → MineralWithQuantity → List MineralWithQuantity
  | [], x => [x]
  | item :: rest, x =>
      if item.mineral.yield < x.mineral.yield then x :: item :: rest
      else item :: insertByYield rest x

/-- Loop body of `groupAndSortMinerals`: fetch (or default) the group keyed
by the lower-cased produced type, insert sorted, and store it back. -/
def groupInsert (mineralsByType : List (String × List MineralWithQuantity))
    (mineralWithQty : MineralWithQuantity) : List (String × List MineralWithQuantity) :=
  mapSet mineralsByType (strLower mineralWithQty.mineral.produces)
    (insertByYield
      ((mapGet mineralsByType (strLower mineralWithQty.mineral.produces)).getD [])
      mineralWithQty)

def groupAndSortMinerals (availableMinerals : List MineralWithQuantity) :
    List (String × List MineralWithQuantity) :=
  availableMinerals.foldl groupInsert []

def calculateTotalMb (minerals : List MineralWithQuantity) : ℚ :=
  minerals.foldl (fun sum m => sum + ((m.mineral.yield * m.quantity : ℕ) : ℚ)) 0

def calculateAvailableMbByType (mineralsByType : List (String × List MineralWithQuantity)) :
    List (String × ℚ) :=
  mineralsByType.map (fun p => (p.1, calculateTotalMb p.2))

/-- One `usedMinerals.forEach` step of `updateAvailableMinerals`: decrement
the map entry, deleting it when the JS quantity would drop to `≤ 0`. -/
def updateSubtract (acc : List (String × MineralWithQuantity))
    (used : MineralWithQuantity) : List (String × MineralWithQuantity) :=
  match mapGet acc used.mineral.name with
  | some current =>
      if current.quantity ≤ used.quantity then mapDelete acc used.mineral.name
      else mapSet acc used.mineral.name
             { current with quantity := current.quantity - used.quantity }
  | none => acc

def updateAvailableMinerals (currentMinerals usedMinerals : List MineralWithQuantity) :
    List MineralWithQuantity :=
  let updatedMinerals :=
    currentMinerals.foldl (fun acc m => mapSet acc m.mineral.name m) []
  (usedMinerals.foldl updateSubtract updatedMinerals).map Prod.snd

/-- The `reduce` body of `consolidateMinerals`. -/
def consolidateStep (acc : List (String × MineralWithQuantity))
    (current : MineralWithQuantity) : List (String × MineralWithQuantity) :=
  match mapGet acc current.mineral.name with
  | some existing =>
      mapSet acc current.mineral.name
        { existing with quantity := existing.quantity + current.quantity }
  | none => mapSet acc current.mineral.name current

def consolidateMinerals (minerals : List MineralWithQuantity) : List MineralWithQuantity :=
  if minerals.length ≤ 1 then minerals
  else (minerals.foldl consolidateStep []).map Prod.snd

def getFinalMinerals (batchResults : List AlloyProductionResult) : List MineralWithQuantity :=
  consolidateMinerals (batchResults.map (·.usedMinerals)).flatten

def getNextBatchSizeGo (remainingMb : ℚ) (currentBatchSizeMb : ℕ) : List ℕ → Option ℕ
  | [] => none
  | size :: rest =>
      let potentialNextBatchMb := size * INGOT_SIZE
      if (potentialNextBatchMb : ℚ) > remainingMb then
        getNextBatchSizeGo remainingMb currentBatchSizeMb rest
      else if potentialNextBatchMb < currentBatchSizeMb then some potentialNextBatchMb
      else getNextBatchSizeGo remainingMb currentBatchSizeMb rest

def getNextBatchSize (remainingMb : ℚ) (currentBatchSizeMb : ℕ) : Option ℕ :=
  getNextBatchSizeGo remainingMb currentBatchSizeMb BATCH_SIZE_FIBONACCI_SEQ

/-- `Number.MAX_SAFE_INTEGER`. -/
def maxSafeInteger : ℕ := 9007199254740991

/-- A zero used quantity would give JS `Infinity` (absorbed by the outer
`Math.min`); it is modelled by the `maxSafeInteger` seed itself. -/
def calculateViableBatchScale (batch : AlloyProductionResult)
    (availableMinerals : List MineralWithQuantity) : ℕ :=
  (batch.usedMinerals.map
    (fun usedMineral =>
      match availableMinerals.find? (fun m => m.mineral.name == usedMineral.mineral.name) with
      | some available =>
          if usedMineral.quantity = 0 then maxSafeInteger
          else available.quantity / usedMineral.quantity
      | none => 0)).foldr min maxSafeInteger

def scaleBatch (batchResult : AlloyProductionResult) (scale : ℕ) : AlloyProductionResult :=
  { success := batchResult.success
    usedMinerals := batchResult.usedMinerals.map
      (fun mineral => { mineral := mineral.mineral, quantity := mineral.quantity * scale })
    outputMb := batchResult.outputMb * scale
    message := none
    stats := none }

def isValidCombination (mb minMb maxMb : ℚ) : Bool :=
  decide (mb ≥ minMb) && decide (mb ≤ maxMb)

def tryAddMineralQuantity (state : MineralState) (mineral : MineralWithQuantity)
    (quantity : ℕ) (maxMb : ℚ) : Option MineralState :=
  if state.mb + ((mineral.mineral.yield * quantity : ℕ) : ℚ) > maxMb then none
  else some
    { minerals :=
        if 0 < quantity then state.minerals ++ [⟨mineral.mineral, quantity⟩]
        else state.minerals
      index := state.index + 1
      mb := state.mb + ((mineral.mineral.yield * quantity : ℕ) : ℚ) }

/-- The `for qty = 0 .. quantity` push loop inside the combination search;
fuel `quantity + 1` covers every iteration. -/
def childStatesGo (current : MineralState) (currentMineral : MineralWithQuantity)
    (maxMb : ℚ) : ℕ → ℕ → List MineralState
  | _, 0 => []
  | qty, fuel + 1 =>
      match tryAddMineralQuantity current currentMineral qty maxMb with
      | none => []
      | some newState => newState :: childStatesGo current currentMineral maxMb (qty + 1) fuel

def childStates (current : MineralState) (currentMineral : MineralWithQuantity)
    (maxMb : ℚ) : List MineralState :=
  childStatesGo current currentMineral maxMb 0 (currentMineral.quantity + 1)

/-- Work remaining below one stack state: product of `quantity + 2` over the
entries not yet indexed.  The total over a stack strictly decreases at each
pop, so it doubles as the fuel bound for the explicit-stack search. -/
def stateMeasure (minerals : List MineralWithQuantity) (s : MineralState) : ℕ :=
  ((minerals.drop s.index).map (fun m => m.quantity + 2)).prod

def measSum (minerals : List MineralWithQuantity) (stack : List MineralState) : ℕ :=
  (stack.map (stateMeasure minerals)).sum

/-- Accept bookkeeping at each popped state: a state whose volume lies in
the interval emits its selection. -/
def genAccept (minMb maxMb : ℚ) (current : MineralState)
    (acc : List (List MineralWithQuantity)) : List (List MineralWithQuantity) :=
  if isValidCombination current.mb minMb maxMb then acc ++ [current.minerals] else acc

/-- Counter bookkeeping at each popped state: `runs` always, then one of
`accepts`/`declines` exactly as in the source's branch structure. -/
def genCount (minMb maxMb : ℚ) (current : MineralState)
    (stats : ComponentGenerationStats) : ComponentGenerationStats :=
  if isValidCombination current.mb minMb maxMb then
    { stats with runs := stats.runs + 1, accepts := stats.accepts + 1 }
  else if current.mb < minMb ∨ current.mb > maxMb then
    { stats with runs := stats.runs + 1, declines := stats.declines + 1 }
  else { stats with runs := stats.runs + 1 }

/-- The explicit-stack depth-first loop of `generateComponentCombinations`.
The head of `stack` is the top (last pushed); pushing the qty-ascending
children therefore prepends them reversed. -/
def genLoopF (minerals : List MineralWithQuantity) (minMb maxMb : ℚ) :
    ℕ → List MineralState → List (List MineralWithQuantity) →
    ComponentGenerationStats → CombinationResult
  | 0, _, acc, stats => ⟨acc, stats⟩
  | _fuel + 1, [], acc, stats => ⟨acc, stats⟩
  | fuel + 1, current :: rest, acc, stats =>
      if h : minerals.length ≤ current.index ∨ current.mb > maxMb then
        genLoopF minerals minMb maxMb fuel rest
          (genAccept minMb maxMb current acc) (genCount minMb maxMb current stats)
      else
        genLoopF minerals minMb maxMb fuel
          ((childStates current (minerals.get ⟨current.index, by push_neg at h; exact h.1⟩)
              maxMb).reverse ++ rest)
          (genAccept minMb maxMb current acc) (genCount minMb maxMb current stats)

def generateComponentCombinations (minerals : List MineralWithQuantity)
    (minMb maxMb : ℚ) : CombinationResult :=
  genLoopF minerals minMb maxMb (stateMeasure minerals ⟨[], 0, 0⟩) [⟨[], 0, 0⟩] [] ⟨0, 0, 0⟩

/-- One step of the `minerals.forEach` grouping volumes by raw type key. -/
def mbByTypeStep (mbByType : List (String × ℚ)) (mineral : MineralWithQuantity) :
    List (String × ℚ) :=
  mapSet mbByType mineral.mineral.produces
    ((mapGet mbByType mineral.mineral.produces).getD 0
      + ((mineral.mineral.yield * mineral.quantity : ℕ) : ℚ))

def mbByTypeOf (minerals : List MineralWithQuantity) : List (String × ℚ) :=
  minerals.foldl mbByTypeStep []

/-- The whole-combination validator closed over inside `calculateSingleBatch`
(its inner `isValidCombination`).  A zero total makes the JS percentage NaN
or Infinity, failing both comparisons, hence the explicit `false`. -/
def isValidWholeCombination (targetMb : ℚ) (sortedComponents : List AlloyComponent)
    (minerals : List MineralWithQuantity) : Bool :=
  let totalMb := calculateTotalMb minerals
  if 0 < |round totalMb - round targetMb| then false
  else
    let mbByType := mbByTypeOf minerals
    sortedComponents.all
      (fun component =>
        let mineralType := strLower component.mineral
        let mb := (mapGet mbByType mineralType).getD 0
        if totalMb = 0 then false
        else
          let percentage := mb / totalMb * 100
          decide (percentage ≥ component.min) && decide (percentage ≤ component.max))

/-- Stable ascending insertion for the component sort
`[...components].sort((a, b) => a.min - b.min)`; a stable sort's output is
unique, so insertion sort reproduces the JS engine's stable `Array.sort`. -/
def insertComponentByMin (c : AlloyComponent) :
    List AlloyComponent → List AlloyComponent
  | [] => [c]
  | d :: rest => if c.min ≤ d.min then c :: d :: rest else d :: insertComponentByMin c rest

def sortComponentsByMin (components : List AlloyComponent) : List AlloyComponent :=
  components.foldr insertComponentByMin []

/-- The per-component loop of `calculateSingleBatch`.  The source detects the
last component by identity with the final array element; here the remainder
list being a singleton plays that role. -/
def calculateSingleBatchGo (targetMb : ℚ) (sortedComponents : List AlloyComponent)
    (mineralsByType : List (String × List MineralWithQuantity)) :
    List AlloyComponent → List MineralWithQuantity → AlloyProductionResult
  | [], currentCombination =>
      { outputMb := calculateTotalMb currentCombination
        usedMinerals := currentCombination
        success := true
        message := none
        stats := none }
  | component :: restComponents, currentCombination =>
      let mineralType := strLower component.mineral
      let minerals := (mapGet mineralsByType mineralType).getD []
      let minMb := component.min / 100 * targetMb
      let maxMb := component.max / 100 * targetMb
      let componentCombinationResult := generateComponentCombinations minerals minMb maxMb
      let componentStats := componentCombinationResult.stats
      match componentCombinationResult.combinations with
      | [] =>
          { outputMb := 0
            usedMinerals := []
            success := false
            message := some ("No valid combinations found for component: " ++ component.mineral)
            stats := some ⟨some componentStats, none, none⟩ }
      | c0 :: restCombinations =>
          if restComponents.isEmpty then
            match (c0 :: restCombinations).find?
                (fun combination =>
                  isValidWholeCombination targetMb sortedComponents
                    (currentCombination ++ combination)) with
            | some combination =>
                calculateSingleBatchGo targetMb sortedComponents mineralsByType
                  restComponents (currentCombination ++ combination)
            | none =>
                { outputMb := 0
                  usedMinerals := []
                  success := false
                  message := some ("No valid combination found for component: " ++ component.mineral)
                  stats := some ⟨some componentStats, none, none⟩ }
          else
            calculateSingleBatchGo targetMb sortedComponents mineralsByType
              restComponents (currentCombination ++ c0)

def calculateSingleBatch (targetMb : ℚ) (components : List AlloyComponent)
    (availableMinerals : List MineralWithQuantity) : AlloyProductionResult :=
  let sortedComponents := sortComponentsByMin components
  let mineralsByType := groupAndSortMinerals availableMinerals
  calculateSingleBatchGo targetMb sortedComponents mineralsByType sortedComponents []

structure BatchLoopState where
  batchResults : List AlloyProductionResult
  remainingMb : ℚ
  availableMinerals : List MineralWithQuantity
  batchRunCount : ℕ
  batchAcceptCount : ℕ
  batchDeclineCount : ℕ
  batchScaleEfficiency : ℕ
  batchBacktrackPotential : ℕ
  attempted : List ℕ
deriving DecidableEq, Repr

/-- Body of one batch-loop iteration once a batch size has been produced:
record the attempt, run `calculateSingleBatch`, and on success scale the
batch, consume stock and book the statistics. -/
def batchLoopBody (components : List AlloyComponent) (st1 : BatchLoopState)
    (currentBatchSizeMb : ℕ) : BatchLoopState :=
  let st2 := { st1 with attempted := st1.attempted ++ [currentBatchSizeMb] }
  let batchResult :=
    calculateSingleBatch (currentBatchSizeMb : ℚ) components st2.availableMinerals
  if batchResult.success then
    let scale := calculateViableBatchScale batchResult st2.availableMinerals
    let scaledBatchResult :=
      if 1 < scale then scaleBatch batchResult scale else batchResult
    { st2 with
        batchAcceptCount := st2.batchAcceptCount + 1
        batchScaleEfficiency := st2.batchScaleEfficiency + scale
        batchResults := st2.batchResults ++ [scaledBatchResult]
        remainingMb := st2.remainingMb - scaledBatchResult.outputMb
        availableMinerals :=
          updateAvailableMinerals st2.availableMinerals scaledBatchResult.usedMinerals }
  else { st2 with batchDeclineCount := st2.batchDeclineCount + 1 }

/-- The `while (remainingMb > 0)` loop of `findValidCombinationBatched`.
`attempted` is a ghost trace of each volume passed to `calculateSingleBatch`.
The fuel exceeds `nextBatchSizeMb`, which strictly decreases per iteration,
so it never runs out when seeded with `MAX_BATCH_MB + 1`. -/
def batchLoopF (components : List AlloyComponent) :
    ℕ → BatchLoopState → ℕ → BatchLoopState
  | 0, st, _ => st
  | fuel + 1, st, nextBatchSizeMb =>
      if 0 < st.remainingMb then
        match getNextBatchSize st.remainingMb nextBatchSizeMb with
        | none =>
            { st with batchRunCount := st.batchRunCount + 1,
                      batchBacktrackPotential := st.batchBacktrackPotential + 1 }
        | some currentBatchSizeMb =>
            batchLoopF components fuel
              (batchLoopBody components { st with batchRunCount := st.batchRunCount + 1 }
                currentBatchSizeMb)
              currentBatchSizeMb
      else st

def batchLoopRun (components : List AlloyComponent) (targetMb : ℚ)
    (availableMinerals : List MineralWithQuantity) : BatchLoopState :=
  batchLoopF components (MAX_BATCH_MB + 1)
    { batchResults := []
      remainingMb := targetMb
      availableMinerals := availableMinerals
      batchRunCount := 0
      batchAcceptCount := 0
      batchDeclineCount := 0
      batchScaleEfficiency := 0
      batchBacktrackPotential := 0
      attempted := [] }
    MAX_BATCH_MB

/-- Ghost observation: the sequence of batch volumes actually handed to
`calculateSingleBatch` during one run of the batched search. -/
def batchAttemptTrace (targetMb : ℚ) (components : List AlloyComponent)
    (availableMinerals : List MineralWithQuantity) : List ℕ :=
  (batchLoopRun components targetMb availableMinerals).attempted

def statsGenerationOf (batchResults : List AlloyProductionResult) : ComponentGenerationStats :=
  { runs := (batchResults.map
      (fun r => ((r.stats.bind (·.generation)).map (·.runs)).getD 0)).sum
    accepts := (batchResults.map
      (fun r => ((r.stats.bind (·.generation)).map (·.accepts)).getD 0)).sum
    declines := (batchResults.map
      (fun r => ((r.stats.bind (·.generation)).map (·.declines)).getD 0)).sum }

def findValidCombinationBatched (targetMb : ℚ) (components : List AlloyComponent)
    (availableMinerals : List MineralWithQuantity) : AlloyProductionResult :=
  let final := batchLoopRun components targetMb availableMinerals
  let stats : Stats :=
    { generation := some (statsGenerationOf final.batchResults)
      batch := some
        { count := final.batchRunCount
          accepts := final.batchAcceptCount
          declines := final.batchDeclineCount
          scaleEfficiency := final.batchScaleEfficiency
          backtrackPotential := final.batchBacktrackPotential }
      usage := none }
  let totalOutputMb := (final.batchResults.map (·.outputMb)).sum
  if targetMb ≤ totalOutputMb then
    { outputMb := totalOutputMb
      usedMinerals := getFinalMinerals final.batchResults
      success := true
      message := none
      stats := some stats }
  else
    { outputMb := 0
      usedMinerals := []
      success := false
      message := some "No valid combination found!"
      stats := some stats }

/-- Spread of `{...result.stats, usage: {...}}` onto the solver's result. -/
def statsWithUsage (s : Option Stats) (timeTaken : ℚ) : Stats :=
  { generation := s.bind (·.generation)
    batch := s.bind (·.batch)
    usage := some { memoryMB := 0, runtimeMs := timeTaken } }

/-- First component whose minimum requirement exceeds the available volume of
its type, with the failure message built from the lower-cased type. -/
def firstDeficientComponent (totalAvailableByType : List (String × ℚ)) (targetMb : ℚ) :
    List AlloyComponent → Option String
  | [] => none
  | component :: rest =>
      let mineralType := strLower component.mineral
      let minRequired := component.min / 100 * targetMb
      let available := (mapGet totalAvailableByType mineralType).getD 0
      if available < minRequired then
        some ("Not enough " ++ mineralType ++ " for minimum requirement")
      else firstDeficientComponent totalAvailableByType targetMb rest

/-- The entry point.  `startTime` and `endTime` stand for the two
`performance.now()` readings taken around the batched search. -/
def calculateAlloy (targetMb : ℚ) (targetAlloy : Alloy)
    (availableMinerals : List MineralWithQuantity) (startTime endTime : ℚ) :
    AlloyProductionResult :=
  let mineralsByType := groupAndSortMinerals availableMinerals
  let totalAvailableByType := calculateAvailableMbByType mineralsByType
  let totalAvailable := ((totalAvailableByType.map Prod.snd).foldl (· + ·) 0)
  if totalAvailable < targetMb then
    { outputMb := 0
      usedMinerals := []
      success := false
      message := some "Not enough total material available"
      stats := none }
  else
    match firstDeficientComponent totalAvailableByType targetMb targetAlloy.components with
    | some msg =>
        { outputMb := 0
          usedMinerals := []
          success := false
          message := some msg
          stats := none }
    | none =>
        let result := findValidCombinationBatched targetMb targetAlloy.components availableMinerals
        let timeTaken := endTime - startTime
        if result.success then
          { outputMb := targetMb
            usedMinerals := result.usedMinerals
            success := true
            message := none
            stats := some (statsWithUsage result.stats timeTaken) }
        else
          { outputMb := 0
            usedMinerals := []
            success := false
            message := some "Could not find valid combination of materials"
            stats := some (statsWithUsage result.stats timeTaken) }

/-! ### Basic volume bookkeeping -/

/-- Volume contributed by one stock entry. -/
def mbOf (m : MineralWithQuantity) : ℚ := ((m.mineral.yield * m.quantity : ℕ) : ℚ)

lemma mbOf_nonneg (m : MineralWithQuantity) : 0 ≤ mbOf m := by
  simp only [mbOf]
  positivity

lemma foldl_add_mb (l : List MineralWithQuantity) (a : ℚ) :
    l.foldl (fun sum m => sum + ((m.mineral.yield * m.quantity : ℕ) : ℚ)) a
      = a + (l.map mbOf).sum := by
  induction l generalizing a with
  | nil => simp
  | cons x xs ih =>
      simp only [List.foldl_cons, ih, List.map_cons, List.sum_cons, mbOf]
      ring

lemma calculateTotalMb_eq (l : List MineralWithQuantity) :
    calculateTotalMb l = (l.map mbOf).sum := by
  simpa [calculateTotalMb] using foldl_add_mb l 0

lemma calculateTotalMb_nonneg (l : List MineralWithQuantity) : 0 ≤ calculateTotalMb l := by
  rw [calculateTotalMb_eq]
  exact List.sum_nonneg (by simp [mbOf_nonneg])

lemma calculateTotalMb_cons (x : MineralWithQuantity) (l : List MineralWithQuantity) :
    calculateTotalMb (x :: l) = mbOf x + calculateTotalMb l := by
  simp [calculateTotalMb_eq]

lemma calculateTotalMb_append (a b : List MineralWithQuantity) :
    calculateTotalMb (a ++ b) = calculateTotalMb a + calculateTotalMb b := by
  simp [calculateTotalMb_eq]

lemma calculateTotalMb_perm {a b : List MineralWithQuantity} (h : a.Perm b) :
    calculateTotalMb a = calculateTotalMb b := by
  simp only [calculateTotalMb_eq]
  exact (h.map mbOf).sum_eq

/-! ### Association-list map lemmas -/

lemma mapGet_mapSet_self {α : Type} (m : List (String × α)) (k : String) (v : α) :
    mapGet (mapSet m k v) k = some v := by
  induction m with
  | nil => simp [mapGet, mapSet]
  | cons p rest ih =>
      obtain ⟨k', w⟩ := p
      by_cases h : k' = k <;> simp [mapGet, mapSet, h, ih]

lemma mapGet_mapSet_ne {α : Type} (m : List (String × α)) {k t : String} (h : k ≠ t) (v : α) :
    mapGet (mapSet m k v) t = mapGet m t := by
  induction m with
  | nil => simp [mapGet, mapSet, h]
  | cons p rest ih =>
      obtain ⟨k', w⟩ := p
      by_cases h2 : k' = k <;> by_cases h3 : k' = t <;> simp_all [mapGet, mapSet]

lemma insertByYield_perm (g : List MineralWithQuantity) (x : MineralWithQuantity) :
    (insertByYield g x).Perm (x :: g) := by
  induction g with
  | nil => simp [insertByYield]
  | cons item rest ih =>
      unfold insertByYield
      split
      · exact List.Perm.refl _
      · exact (List.Perm.cons item ih).trans (List.Perm.swap x item rest)

/-! ### The availability-by-type map, and the total stock volume -/

def sumGroups (m : List (String × List MineralWithQuantity)) : ℚ :=
  (m.map (fun p => calculateTotalMb p.2)).sum

lemma sumGroups_cons (p : String × List MineralWithQuantity)
    (rest : List (String × List MineralWithQuantity)) :
    sumGroups (p :: rest) = calculateTotalMb p.2 + sumGroups rest := by
  simp [sumGroups]

lemma sumGroups_set_insert (acc : List (String × List MineralWithQuantity))
    (k : String) (x : MineralWithQuantity) :
    sumGroups (mapSet acc k (insertByYield ((mapGet acc k).getD []) x))
      = sumGroups acc + mbOf x := by
  induction acc with
  | nil =>
      have h : calculateTotalMb (insertByYield [] x) = mbOf x := by
        rw [calculateTotalMb_perm (insertByYield_perm [] x), calculateTotalMb_cons]
        simp [calculateTotalMb]
      simp [sumGroups, mapSet, mapGet, h]
  | cons p rest ih =>
      obtain ⟨k', g⟩ := p
      by_cases h : k' = k
      · subst h
        have h1 : mapGet ((k', g) :: rest) k' = some g := by simp [mapGet]
        have h2 : mapSet ((k', g) :: rest) k' (insertByYield g x)
            = (k', insertByYield g x) :: rest := by simp [mapSet]
        rw [h1, Option.getD_some, h2, sumGroups_cons, sumGroups_cons,
          calculateTotalMb_perm (insertByYield_perm g x), calculateTotalMb_cons]
        ring
      · have h1 : mapGet ((k', g) :: rest) k = mapGet rest k := by simp [mapGet, h]
        have h2 : ∀ v, mapSet ((k', g) :: rest) k v = (k', g) :: mapSet rest k v := by
          intro v; simp [mapSet, h]
        rw [h1, h2, sumGroups_cons, sumGroups_cons, ih]
        ring

lemma sumGroups_groupAndSortMinerals (l : List MineralWithQuantity) :
    sumGroups (groupAndSortMinerals l) = calculateTotalMb l := by
  suffices h : ∀ acc, sumGroups (l.foldl groupInsert acc) = sumGroups acc + calculateTotalMb l by
    simpa [groupAndSortMinerals, sumGroups] using h []
  induction l with
  | nil => intro acc; simp [calculateTotalMb]
  | cons x xs ih =>
      intro acc
      simp only [List.foldl_cons]
      rw [ih, calculateTotalMb_cons]
      show sumGroups (mapSet acc _ (insertByYield ((mapGet acc _).getD []) x)) + _ = _
      rw [sumGroups_set_insert]
      ring

lemma foldl_add_rat (l : List ℚ) (a : ℚ) : l.foldl (· + ·) a = a + l.sum := by
  induction l generalizing a with
  | nil => simp
  | cons x xs ih => simp [ih, add_assoc]

lemma totalAvailable_eq (l : List MineralWithQuantity) :
    ((calculateAvailableMbByType (groupAndSortMinerals l)).map Prod.snd).foldl (· + ·) 0
      = calculateTotalMb l := by
  rw [foldl_add_rat]
  have h : (calculateAvailableMbByType (groupAndSortMinerals l)).map Prod.snd
      = (groupAndSortMinerals l).map (fun p => calculateTotalMb p.2) := by
    simp [calculateAvailableMbByType]
  rw [h]
  simpa [sumGroups] using sumGroups_groupAndSortMinerals l

lemma mapGet_map_snd {α β : Type} (f : α → β) (m : List (String × α)) (t : String) :
    mapGet (m.map (fun p => (p.1, f p.2))) t = (mapGet m t).map f := by
  induction m with
  | nil => simp [mapGet]
  | cons p rest ih =>
      obtain ⟨k, v⟩ := p
      by_cases h : k = t <;> simp [mapGet, h, ih]

lemma availableByType_nonneg (stock : List MineralWithQuantity) (t : String) :
    0 ≤ ((mapGet (calculateAvailableMbByType (groupAndSortMinerals stock)) t).getD 0) := by
  have h : calculateAvailableMbByType (groupAndSortMinerals stock)
      = (groupAndSortMinerals stock).map (fun p => (p.1, calculateTotalMb p.2)) := rfl
  rw [h, mapGet_map_snd]
  cases hg : mapGet (groupAndSortMinerals stock) t with
  | none => simp
  | some g => simpa using calculateTotalMb_nonneg g

lemma batchLoopF_nonpos (components : List AlloyComponent) (fuel : ℕ)
    (st : BatchLoopState) (n : ℕ) (h : st.remainingMb ≤ 0) :
    batchLoopF components fuel st n = st := by
  cases fuel with
  | zero => rfl
  | succ fuel => simp [batchLoopF, not_lt.mpr h]

lemma firstDeficient_none_of_nonpos (stock : List MineralWithQuantity) (targetMb : ℚ)
    (hT : targetMb ≤ 0) :
    ∀ components : List AlloyComponent, (∀ c ∈ components, 0 ≤ c.min) →
      firstDeficientComponent (calculateAvailableMbByType (groupAndSortMinerals stock))
        targetMb components = none := by
  intro components hmin
  induction components with
  | nil => rfl
  | cons c rest ih =>
      have h1 : c.min / 100 * targetMb ≤ 0 := by
        have := hmin c (by simp)
        have hc : 0 ≤ c.min / 100 := by positivity
        exact mul_nonpos_of_nonneg_of_nonpos hc hT
      have h2 := availableByType_nonneg stock (strLower c.mineral)
      simp only [firstDeficientComponent]
      rw [if_neg (by push_neg; exact le_trans h1 h2)]
      exact ih (fun d hd => hmin d (by simp [hd]))

/-! ### Claim theorems: C6, C7, C8, C10 -/

/-- C8: running the per-component combination generator on an empty mineral
sequence yields exactly one accepted combination (the empty selection) iff
`0` lies in the closed interval `[minMb, maxMb]`, and none otherwise. -/
theorem c8_empty_sequence_combinations (minMb maxMb : ℚ) :
    (generateComponentCombinations [] minMb maxMb).combinations =
      if minMb ≤ 0 ∧ 0 ≤ maxMb then [([] : List MineralWithQuantity)] else [] := by
  by_cases h1 : minMb ≤ 0 <;> by_cases h2 : (0:ℚ) ≤ maxMb <;>
    simp [generateComponentCombinations, stateMeasure, genLoopF, isValidCombination,
      genAccept, h1, h2]

lemma calculateAlloy_success_outputMb (targetMb : ℚ) (targetAlloy : Alloy)
    (availableMinerals : List MineralWithQuantity) (startTime endTime : ℚ) :
    (calculateAlloy targetMb targetAlloy availableMinerals startTime endTime).success = true →
    (calculateAlloy targetMb targetAlloy availableMinerals startTime endTime).outputMb
      = targetMb := by
  simp only [calculateAlloy]
  split
  · intro h; simp at h
  · split
    · intro h; simp at h
    · split
      · intro _; rfl
      · intro h; simp at h

/-- C6: whenever `calculateAlloy` reports success, the reported `outputMb`
equals the requested `targetMb` exactly. -/
theorem c6_success_output_eq_target (targetMb : ℚ) (targetAlloy : Alloy)
    (availableMinerals : List MineralWithQuantity) (startTime endTime : ℚ) :
    (calculateAlloy targetMb targetAlloy availableMinerals startTime endTime).success = true →
    (calculateAlloy targetMb targetAlloy availableMinerals startTime endTime).outputMb
      = targetMb :=
  calculateAlloy_success_outputMb targetMb targetAlloy availableMinerals startTime endTime

theorem c6_witness : (calculateAlloy 144 (Alloy.mk "X" [⟨"x", 100, 100⟩])
      [⟨⟨"M", "x", 144⟩, 10⟩] 0 0).success = true ∧
    (calculateAlloy 144 (Alloy.mk "X" [⟨"x", 100, 100⟩])
      [⟨⟨"M", "x", 144⟩, 10⟩] 0 0).outputMb = 144 :=
  ⟨by with_unfolding_all decide,
   c6_success_output_eq_target 144 (Alloy.mk "X" [⟨"x", 100, 100⟩])
     [⟨⟨"M", "x", 144⟩, 10⟩] 0 0 (by with_unfolding_all decide)⟩

/-- C7: if the total available stock volume is below the target volume, the
solver fails with the insufficient-total-material message, zero output and
an empty allocation. -/
theorem c7_insufficient_total_material (targetMb : ℚ) (targetAlloy : Alloy)
    (stock : List MineralWithQuantity) (t1 t2 : ℚ)
    (h : calculateTotalMb stock < targetMb) :
    calculateAlloy targetMb targetAlloy stock t1 t2 =
      { outputMb := 0, usedMinerals := [], success := false,
        message := some "Not enough total material available", stats := none } := by
  simp only [calculateAlloy]
  rw [if_pos]
  rw [totalAvailable_eq]
  exact h

theorem c7_witness : calculateTotalMb [] < 432 ∧
    calculateAlloy 432 (Alloy.mk "Bronze" [⟨"tin", 8, 12⟩, ⟨"copper", 88, 92⟩]) [] 0 0 =
      { outputMb := 0, usedMinerals := [], success := false,
        message := some "Not enough total material available", stats := none } :=
  ⟨by with_unfolding_all decide,
   c7_insufficient_total_material 432 (Alloy.mk "Bronze" [⟨"tin", 8, 12⟩, ⟨"copper", 88, 92⟩])
     [] 0 0 (by with_unfolding_all decide)⟩

/-- C10: for a non-positive target (outside the documented precondition) and
any spec with non-negative minimum percentages, `calculateAlloy` reports
success with `outputMb = targetMb` and an empty allocation: both feasibility
checks pass vacuously and the batch loop body never runs. -/
theorem c10_nonpositive_target_succeeds (targetMb : ℚ) (targetAlloy : Alloy)
    (stock : List MineralWithQuantity) (t1 t2 : ℚ) (hT : targetMb ≤ 0)
    (hmin : ∀ c ∈ targetAlloy.components, 0 ≤ c.min) :
    (calculateAlloy targetMb targetAlloy stock t1 t2).success = true ∧
    (calculateAlloy targetMb targetAlloy stock t1 t2).outputMb = targetMb ∧
    (calculateAlloy targetMb targetAlloy stock t1 t2).usedMinerals = [] := by
  have hloop : batchLoopRun targetAlloy.components targetMb stock =
      { batchResults := [], remainingMb := targetMb, availableMinerals := stock,
        batchRunCount := 0, batchAcceptCount := 0, batchDeclineCount := 0,
        batchScaleEfficiency := 0, batchBacktrackPotential := 0, attempted := [] } := by
    unfold batchLoopRun
    exact batchLoopF_nonpos _ _ _ _ hT
  have hfvc : findValidCombinationBatched targetMb targetAlloy.components stock =
      { outputMb := 0, usedMinerals := [], success := true, message := none,
        stats := some { generation := some ⟨0, 0, 0⟩,
                        batch := some ⟨0, 0, 0, 0, 0⟩, usage := none } } := by
    unfold findValidCombinationBatched
    rw [hloop]
    simp [statsGenerationOf, getFinalMinerals, consolidateMinerals, hT]
  simp only [calculateAlloy]
  rw [if_neg (by
        rw [totalAvailable_eq]
        exact not_lt.mpr (le_trans hT (calculateTotalMb_nonneg stock))),
    firstDeficient_none_of_nonpos stock targetMb hT targetAlloy.components hmin, hfvc]
  simp

theorem c10_witness :
    ((0:ℚ) ≤ 0 ∧ ∀ c ∈ (Alloy.mk "Bronze" [⟨"tin", 8, 12⟩, ⟨"copper", 88, 92⟩]).components,
        0 ≤ c.min) ∧
    (calculateAlloy 0 (Alloy.mk "Bronze" [⟨"tin", 8, 12⟩, ⟨"copper", 88, 92⟩]) [] 0 0).success
      = true ∧
    (calculateAlloy 0 (Alloy.mk "Bronze" [⟨"tin", 8, 12⟩, ⟨"copper", 88, 92⟩]) [] 0 0).outputMb
      = 0 ∧
    (calculateAlloy 0 (Alloy.mk "Bronze" [⟨"tin", 8, 12⟩, ⟨"copper", 88, 92⟩]) [] 0 0).usedMinerals
      = [] :=
  ⟨⟨le_refl 0, by intro c hc; fin_cases hc <;> norm_num⟩,
   c10_nonpositive_target_succeeds 0 (Alloy.mk "Bronze" [⟨"tin", 8, 12⟩, ⟨"copper", 88, 92⟩])
     [] 0 0 (le_refl 0) (by intro c hc; fin_cases hc <;> norm_num)⟩

/-- Erase the wall-clock reading from a result's statistics. -/
def statsNoRuntime (s : Stats) : Stats :=
  { s with usage := s.usage.map (fun u => { u with runtimeMs := 0 }) }

/-- C9 counterexample: two calls of `calculateAlloy` on identical target,
alloy and stock but different `performance.now()` readings return different
results (they differ in `stats.usage.runtimeMs`), refuting strict
result identity. -/
theorem c9_cex :
    calculateAlloy 144 (Alloy.mk "X" [⟨"x", 100, 100⟩]) [⟨⟨"M", "x", 144⟩, 10⟩] 0 0 ≠
    calculateAlloy 144 (Alloy.mk "X" [⟨"x", 100, 100⟩]) [⟨⟨"M", "x", 144⟩, 10⟩] 0 1 := by
  with_unfolding_all decide

/-- C9 amended: `calculateAlloy` is deterministic in everything except the
wall-clock statistic: for any two calls with identical target, alloy spec and
stock, the results agree on the success flag, output volume, allocation,
message and all statistics apart from `stats.usage.runtimeMs`. -/
theorem c9_amended (targetMb : ℚ) (targetAlloy : Alloy)
    (stock : List MineralWithQuantity) (t1 t2 t1' t2' : ℚ) :
    (calculateAlloy targetMb targetAlloy stock t1 t2).outputMb
        = (calculateAlloy targetMb targetAlloy stock t1' t2').outputMb ∧
    (calculateAlloy targetMb targetAlloy stock t1 t2).usedMinerals
        = (calculateAlloy targetMb targetAlloy stock t1' t2').usedMinerals ∧
    (calculateAlloy targetMb targetAlloy stock t1 t2).success
        = (calculateAlloy targetMb targetAlloy stock t1' t2').success ∧
    (calculateAlloy targetMb targetAlloy stock t1 t2).message
        = (calculateAlloy targetMb targetAlloy stock t1' t2').message ∧
    (calculateAlloy targetMb targetAlloy stock t1 t2).stats.map statsNoRuntime
        = (calculateAlloy targetMb targetAlloy stock t1' t2').stats.map statsNoRuntime := by
  simp only [calculateAlloy]
  split
  · exact ⟨rfl, rfl, rfl, rfl, rfl⟩
  · split
    · exact ⟨rfl, rfl, rfl, rfl, rfl⟩
    · split
      · refine ⟨rfl, rfl, rfl, rfl, ?_⟩
        simp [statsWithUsage, statsNoRuntime]
      · refine ⟨rfl, rfl, rfl, rfl, ?_⟩
        simp [statsWithUsage, statsNoRuntime]

lemma fibSeq_eq : BATCH_SIZE_FIBONACCI_SEQ = [8, 5, 3, 2, 1] := by decide

lemma getNextBatchSizeGo_spec (r : ℚ) (n : ℕ) :
    ∀ (l : List ℕ) (c : ℕ), getNextBatchSizeGo r n l = some c →
      c < n ∧ ∃ s ∈ l, c = s * INGOT_SIZE := by
  intro l
  induction l with
  | nil => intro c h; simp [getNextBatchSizeGo] at h
  | cons size rest ih =>
      intro c h
      simp only [getNextBatchSizeGo] at h
      split at h
      · obtain ⟨h1, s, hs, he⟩ := ih c h
        exact ⟨h1, s, by simp [hs], he⟩
      · split at h
        · cases h
          exact ⟨by assumption, size, by simp, rfl⟩
        · obtain ⟨h1, s, hs, he⟩ := ih c h
          exact ⟨h1, s, by simp [hs], he⟩

lemma getNextBatchSize_spec {r : ℚ} {n c : ℕ} (h : getNextBatchSize r n = some c) :
    c < n ∧ 0 < c ∧ INGOT_SIZE ∣ c := by
  obtain ⟨h1, s, hs, he⟩ := getNextBatchSizeGo_spec r n BATCH_SIZE_FIBONACCI_SEQ c h
  rw [fibSeq_eq] at hs
  have hpos : 0 < s := by fin_cases hs <;> norm_num
  refine ⟨h1, ?_, ?_⟩
  · rw [he]; exact Nat.mul_pos hpos (by norm_num [INGOT_SIZE])
  · rw [he]; exact dvd_mul_left INGOT_SIZE s

lemma batchLoopBody_attempted (components : List AlloyComponent) (st : BatchLoopState)
    (c : ℕ) : (batchLoopBody components st c).attempted = st.attempted ++ [c] := by
  cases h : (calculateSingleBatch (c : ℚ) components st.availableMinerals).success <;>
    simp [batchLoopBody, h]

lemma batchLoopF_attempted (components : List AlloyComponent) :
    ∀ (fuel : ℕ) (st : BatchLoopState) (n : ℕ),
    ∃ d, (batchLoopF components fuel st n).attempted = st.attempted ++ d ∧
      (∀ v ∈ d, v < n ∧ 0 < v ∧ INGOT_SIZE ∣ v) ∧
      List.Chain' (fun a b => b < a) d := by
  intro fuel
  induction fuel with
  | zero =>
      intro st n
      exact ⟨[], by simp [batchLoopF], by simp, by simp⟩
  | succ fuel ih =>
      intro st n
      by_cases hrem : 0 < st.remainingMb
      · rw [batchLoopF, if_pos hrem]
        cases hg : getNextBatchSize st.remainingMb n with
        | none => exact ⟨[], by simp, by simp, by simp⟩
        | some c =>
            obtain ⟨d, hd1, hd2, hd3⟩ :=
              ih (batchLoopBody components { st with batchRunCount := st.batchRunCount + 1 } c) c
            rw [batchLoopBody_attempted] at hd1
            have hc := getNextBatchSize_spec hg
            refine ⟨c :: d, by simpa using hd1, ?_, ?_⟩
            · intro v hv
              rcases List.mem_cons.mp hv with rfl | hv
              · exact ⟨hc.1, hc.2.1, hc.2.2⟩
              · obtain ⟨hv1, hv2, hv3⟩ := hd2 v hv
                exact ⟨lt_trans hv1 hc.1, hv2, hv3⟩
            · rw [List.chain'_cons']
              exact ⟨fun h hh => (hd2 h (List.mem_of_mem_head? hh)).1, hd3⟩
      · exact ⟨[], by simp [batchLoopF, hrem], by simp, by simp⟩

/-- C5: within one batched solve, the sequence of batch volumes handed to
`calculateSingleBatch` is strictly decreasing (never re-attempting a volume
greater than or equal to the previous one, even after a success), and every
attempted volume is a positive multiple of `INGOT_SIZE`. -/
theorem c5_planner_strictly_decreasing (targetMb : ℚ) (components : List AlloyComponent)
    (stock : List MineralWithQuantity) :
    List.Chain' (fun a b => b < a) (batchAttemptTrace targetMb components stock) ∧
    ∀ v ∈ batchAttemptTrace targetMb components stock, 0 < v ∧ INGOT_SIZE ∣ v := by
  obtain ⟨d, hd1, hd2, hd3⟩ :=
    batchLoopF_attempted components (MAX_BATCH_MB + 1)
      { batchResults := [], remainingMb := targetMb, availableMinerals := stock,
        batchRunCount := 0, batchAcceptCount := 0, batchDeclineCount := 0,
        batchScaleEfficiency := 0, batchBacktrackPotential := 0, attempted := [] }
      MAX_BATCH_MB
  have he : batchAttemptTrace targetMb components stock = d := by
    unfold batchAttemptTrace batchLoopRun
    simpa using hd1
  rw [he]
  exact ⟨hd3, fun v hv => ⟨(hd2 v hv).2.1, (hd2 v hv).2.2⟩⟩


lemma char_toNat_ofNat {n : ℕ} (h : n.isValidChar) : (Char.ofNat n).toNat = n := by
  unfold Char.ofNat Char.toNat Char.ofNatAux
  rw [dif_pos h]
  simp [UInt32.toNat]

lemma char_toLower_idem (c : Char) : c.toLower.toLower = c.toLower := by
  unfold Char.toLower
  by_cases h : c.toNat ≥ 65 ∧ c.toNat ≤ 90
  · rw [if_pos h]
    have hv : (c.toNat + 32).isValidChar := by
      left
      omega
    rw [if_neg]
    rw [char_toNat_ofNat hv]
    omega
  · rw [if_neg h, if_neg h]

lemma strLower_idem (s : String) : strLower (strLower s) = strLower s := by
  unfold strLower
  simp only [List.map_map]
  congr 1
  exact List.map_congr_left (fun c _ => char_toLower_idem c)

/-- Lower-case one stock entry's `produces` string. -/
def lowerEntry (e : MineralWithQuantity) : MineralWithQuantity :=
  { e with mineral := { e.mineral with produces := strLower e.mineral.produces } }

/-- Lower-case every mineral's `produces` string in a stock list. -/
def lowerStock (stock : List MineralWithQuantity) : List MineralWithQuantity :=
  stock.map lowerEntry

lemma lowerStock_cons (x : MineralWithQuantity) (xs : List MineralWithQuantity) :
    lowerStock (x :: xs) = lowerEntry x :: lowerStock xs := rfl

lemma mapSet_map_snd {α β : Type} (f : α → β) (m : List (String × α)) (k : String) (v : α) :
    mapSet (m.map (fun p => (p.1, f p.2))) k (f v)
      = (mapSet m k v).map (fun p => (p.1, f p.2)) := by
  induction m with
  | nil => simp [mapSet]
  | cons p rest ih =>
      obtain ⟨k', w⟩ := p
      by_cases h : k' = k <;> simp [mapSet, h, ih]

lemma insertByYield_lower (g : List MineralWithQuantity) (x : MineralWithQuantity) :
    insertByYield (g.map lowerEntry) (lowerEntry x) = (insertByYield g x).map lowerEntry := by
  induction g with
  | nil => simp [insertByYield]
  | cons item rest ih =>
      have hy : (lowerEntry item).mineral.yield = item.mineral.yield := rfl
      have hy2 : (lowerEntry x).mineral.yield = x.mineral.yield := rfl
      simp only [List.map_cons, insertByYield, hy, hy2]
      by_cases h : item.mineral.yield < x.mineral.yield
      · rw [if_pos h, if_pos h]
        simp
      · rw [if_neg h, if_neg h, ih]
        simp

lemma groupInsert_lower (acc : List (String × List MineralWithQuantity))
    (x : MineralWithQuantity) :
    groupInsert (acc.map (fun p => (p.1, lowerStock p.2))) (lowerEntry x)
      = (groupInsert acc x).map (fun p => (p.1, lowerStock p.2)) := by
  unfold groupInsert
  have hkey : strLower (lowerEntry x).mineral.produces = strLower x.mineral.produces := by
    simp [lowerEntry, strLower_idem]
  rw [hkey, mapGet_map_snd]
  have hgetD : ((mapGet acc (strLower x.mineral.produces)).map lowerStock).getD []
      = lowerStock ((mapGet acc (strLower x.mineral.produces)).getD []) := by
    cases mapGet acc (strLower x.mineral.produces) <;> simp [lowerStock]
  rw [hgetD]
  have hins : insertByYield (lowerStock ((mapGet acc (strLower x.mineral.produces)).getD []))
        (lowerEntry x)
      = lowerStock (insertByYield ((mapGet acc (strLower x.mineral.produces)).getD []) x) :=
    insertByYield_lower _ x
  rw [hins]
  exact mapSet_map_snd lowerStock acc (strLower x.mineral.produces) _

lemma groupAndSortMinerals_lower (l : List MineralWithQuantity) :
    groupAndSortMinerals (lowerStock l)
      = (groupAndSortMinerals l).map (fun p => (p.1, lowerStock p.2)) := by
  suffices h : ∀ acc, (lowerStock l).foldl groupInsert (acc.map (fun p => (p.1, lowerStock p.2)))
      = (l.foldl groupInsert acc).map (fun p => (p.1, lowerStock p.2)) by
    simpa [groupAndSortMinerals] using h []
  induction l with
  | nil => intro acc; simp [lowerStock]
  | cons x xs ih =>
      intro acc
      rw [lowerStock_cons]
      simp only [List.foldl_cons]
      rw [groupInsert_lower, ih]

lemma calculateTotalMb_lower (g : List MineralWithQuantity) :
    calculateTotalMb (lowerStock g) = calculateTotalMb g := by
  simp only [calculateTotalMb_eq, lowerStock, List.map_map]
  congr 1

/-- C2 counterexample: lower-casing a mineral's `produces` string changes the
result of `calculateAlloy`.  With produces `"Copper"` the final validation
looks the volume up under the raw key and finds nothing, so the solve fails;
with produces `"copper"` it succeeds. -/
theorem c2_cex :
    calculateAlloy 144 (Alloy.mk "Cu" [⟨"copper", 100, 100⟩])
        [⟨⟨"C", "Copper", 144⟩, 1⟩] 0 0 ≠
    calculateAlloy 144 (Alloy.mk "Cu" [⟨"copper", 100, 100⟩])
        (lowerStock [⟨⟨"C", "Copper", 144⟩, 1⟩]) 0 0 := by
  with_unfolding_all decide

/-- C2 amended: grouping and the per-type availability map (hence both
up-front feasibility checks of `calculateAlloy`) are invariant under
lower-casing every mineral's `produces`; the final whole-combination
validation, however, keys volumes by the raw `produces` string, so the
overall result can differ (see the counterexample). -/
theorem c2_amended (stock : List MineralWithQuantity) :
    calculateAvailableMbByType (groupAndSortMinerals (lowerStock stock))
      = calculateAvailableMbByType (groupAndSortMinerals stock) := by
  rw [groupAndSortMinerals_lower]
  unfold calculateAvailableMbByType
  rw [List.map_map]
  exact List.map_congr_left (fun p _ => by simp [Function.comp, calculateTotalMb_lower])


/-! ### Selections produced by the combination search -/

/-- `Subsel c g`: the combination `c` picks, in order, a quantity between 1
and the available quantity from some of the entries of `g`, each entry at
most once.  Every combination emitted by `generateComponentCombinations`
stands in this relation to its mineral group. -/
inductive Subsel : List MineralWithQuantity → List MineralWithQuantity → Prop
  | nil : Subsel [] []
  | skip (e : MineralWithQuantity) {c g : List MineralWithQuantity} :
      Subsel c g → Subsel c (e :: g)
  | take (e : MineralWithQuantity) (q : ℕ) {c g : List MineralWithQuantity}
      (h1 : 1 ≤ q) (h2 : q ≤ e.quantity) :
      Subsel c g → Subsel (⟨e.mineral, q⟩ :: c) (e :: g)

lemma Subsel.snoc_skip {c g : List MineralWithQuantity} (e : MineralWithQuantity)
    (h : Subsel c g) : Subsel c (g ++ [e]) := by
  induction h with
  | nil => exact Subsel.skip e Subsel.nil
  | skip f hf ih => exact Subsel.skip f ih
  | take f q h1 h2 hf ih => exact Subsel.take f q h1 h2 ih

lemma Subsel.snoc_take {c g : List MineralWithQuantity} (e : MineralWithQuantity)
    (q : ℕ) (h1 : 1 ≤ q) (h2 : q ≤ e.quantity) (h : Subsel c g) :
    Subsel (c ++ [⟨e.mineral, q⟩]) (g ++ [e]) := by
  induction h with
  | nil => exact Subsel.take e q h1 h2 Subsel.nil
  | skip f hf ih => exact Subsel.skip f ih
  | take f p p1 p2 hf ih => exact Subsel.take f p p1 p2 ih

lemma Subsel.append_right {c g : List MineralWithQuantity} (h : Subsel c g)
    (g' : List MineralWithQuantity) : Subsel c (g ++ g') := by
  induction g' generalizing g with
  | nil => simpa using h
  | cons e rest ih =>
      have h2 := h.snoc_skip e
      simpa using ih h2

lemma Subsel.of_take_prefix {c : List MineralWithQuantity}
    {g : List MineralWithQuantity} {i : ℕ} (h : Subsel c (g.take i)) : Subsel c g := by
  have h2 := h.append_right (g.drop i)
  simpa using h2

lemma Subsel.mem {c g : List MineralWithQuantity} (h : Subsel c g) :
    ∀ x ∈ c, ∃ e ∈ g, x.mineral = e.mineral ∧ 1 ≤ x.quantity ∧ x.quantity ≤ e.quantity := by
  induction h with
  | nil => simp
  | skip f hf ih =>
      intro x hx
      obtain ⟨e, he, hxe⟩ := ih x hx
      exact ⟨e, by simp [he], hxe⟩
  | take f q h1 h2 hf ih =>
      intro x hx
      rcases List.mem_cons.mp hx with rfl | hx
      · exact ⟨f, by simp, rfl, h1, h2⟩
      · obtain ⟨e, he, hxe⟩ := ih x hx
        exact ⟨e, by simp [he], hxe⟩

/-- Total quantity carried by entries of a given mineral name. -/
def qtyByName (l : List MineralWithQuantity) (n : String) : ℕ :=
  (l.map (fun e => if e.mineral.name = n then e.quantity else 0)).sum

lemma qtyByName_nil (n : String) : qtyByName [] n = 0 := rfl

lemma qtyByName_cons (x : MineralWithQuantity) (l : List MineralWithQuantity) (n : String) :
    qtyByName (x :: l) n
      = (if x.mineral.name = n then x.quantity else 0) + qtyByName l n := by
  simp [qtyByName]

lemma qtyByName_append (a b : List MineralWithQuantity) (n : String) :
    qtyByName (a ++ b) n = qtyByName a n + qtyByName b n := by
  simp [qtyByName]

lemma qtyByName_perm {a b : List MineralWithQuantity} (h : a.Perm b) (n : String) :
    qtyByName a n = qtyByName b n := by
  simp only [qtyByName]
  exact (h.map _).sum_eq

lemma Subsel.qtyByName_le {c g : List MineralWithQuantity} (h : Subsel c g) (n : String) :
    qtyByName c n ≤ qtyByName g n := by
  induction h with
  | nil => simp [qtyByName]
  | skip f hf ih => simp only [qtyByName_cons]; omega
  | take f q h1 h2 hf ih =>
      simp only [qtyByName_cons]
      split <;> omega

lemma Subsel.names_sublist {c g : List MineralWithQuantity} (h : Subsel c g) :
    (c.map (fun e => e.mineral.name)).Sublist (g.map (fun e => e.mineral.name)) := by
  induction h with
  | nil => simp
  | skip f hf ih => exact ih.trans (List.sublist_cons_self _ _)
  | take f q h1 h2 hf ih =>
      simp only [List.map_cons]
      exact List.Sublist.cons₂ _ ih

/-! ### Characterizing the child states pushed by the search -/

lemma tryAdd_some {state : MineralState} {mineral : MineralWithQuantity} {q : ℕ}
    {maxMb : ℚ} {st : MineralState}
    (h : tryAddMineralQuantity state mineral q maxMb = some st) :
    st.index = state.index + 1 ∧
      (st.minerals = state.minerals ∨
        (1 ≤ q ∧ st.minerals = state.minerals ++ [⟨mineral.mineral, q⟩])) := by
  unfold tryAddMineralQuantity at h
  split at h
  · exact absurd h (by simp)
  · cases h
    by_cases hq : 0 < q
    · exact ⟨rfl, Or.inr ⟨hq, by simp [hq]⟩⟩
    · exact ⟨rfl, Or.inl (by simp [hq])⟩

lemma childStatesGo_mem {current : MineralState} {m : MineralWithQuantity} {maxMb : ℚ} :
    ∀ {q0 fuel : ℕ} {st : MineralState}, st ∈ childStatesGo current m maxMb q0 fuel →
      ∃ q, q0 ≤ q ∧ q < q0 + fuel ∧ tryAddMineralQuantity current m q maxMb = some st := by
  intro q0 fuel
  induction fuel generalizing q0 with
  | zero => intro st h; simp [childStatesGo] at h
  | succ fuel ih =>
      intro st h
      rw [childStatesGo] at h
      split at h
      · simp at h
      · rcases List.mem_cons.mp h with rfl | h
        · exact ⟨q0, le_refl _, by omega, by assumption⟩
        · obtain ⟨q, hq1, hq2, hq3⟩ := ih h
          exact ⟨q, by omega, by omega, hq3⟩

lemma childStates_mem {current : MineralState} {m : MineralWithQuantity} {maxMb : ℚ}
    {st : MineralState} (h : st ∈ childStates current m maxMb) :
    ∃ q, q ≤ m.quantity ∧ tryAddMineralQuantity current m q maxMb = some st := by
  obtain ⟨q, _, hq2, hq3⟩ := childStatesGo_mem h
  exact ⟨q, by omega, hq3⟩

/-! ### Every emitted combination is a selection from the group -/

lemma genLoopF_subsel (minerals : List MineralWithQuantity) (minMb maxMb : ℚ) :
    ∀ (fuel : ℕ) (stack : List MineralState) (acc : List (List MineralWithQuantity))
      (stats : ComponentGenerationStats),
      (∀ s ∈ stack, Subsel s.minerals (minerals.take s.index)) →
      (∀ c ∈ acc, Subsel c minerals) →
      ∀ c ∈ (genLoopF minerals minMb maxMb fuel stack acc stats).combinations,
        Subsel c minerals := by
  intro fuel
  induction fuel with
  | zero => intro stack acc stats _ hacc c hc; exact hacc c hc
  | succ fuel ih =>
      intro stack acc stats hstack hacc c hc
      match stack with
      | [] => exact hacc c hc
      | current :: rest =>
          rw [genLoopF] at hc
          have hcur : Subsel current.minerals (minerals.take current.index) :=
            hstack current (by simp)
          have hrest : ∀ s ∈ rest, Subsel s.minerals (minerals.take s.index) :=
            fun s hs => hstack s (by simp [hs])
          have hacc2 : ∀ d ∈ genAccept minMb maxMb current acc, Subsel d minerals := by
            intro d hd
            unfold genAccept at hd
            split at hd
            · rcases List.mem_append.mp hd with hd | hd
              · exact hacc d hd
              · rw [List.mem_singleton.mp hd]
                exact hcur.of_take_prefix
            · exact hacc d hd
          split at hc
          · exact ih rest _ _ hrest hacc2 c hc
          · rename_i hcond
            refine ih _ _ _ ?_ hacc2 c hc
            intro s hs
            rcases List.mem_append.mp hs with hs | hs
            · have hs2 := List.mem_reverse.mp hs
              obtain ⟨q, hq, hadd⟩ := childStates_mem hs2
              obtain ⟨hidx, hmin⟩ := tryAdd_some hadd
              have hlt : current.index < minerals.length := by
                push_neg at hcond
                exact hcond.1
              have htake : minerals.take (current.index + 1)
                  = minerals.take current.index ++ [minerals.get ⟨current.index, hlt⟩] := by
                rw [← List.take_concat_get _ _ hlt, List.concat_eq_append]
                rfl
              rcases hmin with hmin | ⟨hq1, hmin⟩
              · rw [hidx, hmin, htake]
                exact hcur.snoc_skip _
              · rw [hidx, hmin, htake]
                exact hcur.snoc_take _ q hq1 hq
            · exact hrest s hs

lemma generateComponentCombinations_subsel {minerals : List MineralWithQuantity}
    {minMb maxMb : ℚ} {c : List MineralWithQuantity}
    (hc : c ∈ (generateComponentCombinations minerals minMb maxMb).combinations) :
    Subsel c minerals := by
  refine genLoopF_subsel minerals minMb maxMb _ _ _ _ ?_ (by simp) c hc
  intro s hs
  rw [List.mem_singleton.mp hs]
  exact Subsel.nil


/-! ### The groups built by `groupAndSortMinerals` -/

lemma group_foldl_perm (l : List MineralWithQuantity) :
    ∀ (acc : List (String × List MineralWithQuantity)) (t : String),
      ((mapGet (l.foldl groupInsert acc) t).getD []).Perm
        (((mapGet acc t).getD [])
          ++ l.filter (fun e => strLower e.mineral.produces == t)) := by
  induction l with
  | nil => intro acc t; simp
  | cons x xs ih =>
      intro acc t
      rw [List.foldl_cons]
      refine (ih (groupInsert acc x) t).trans ?_
      by_cases h : strLower x.mineral.produces = t
      · have h1 : mapGet (groupInsert acc x) t
            = some (insertByYield ((mapGet acc t).getD []) x) := by
          unfold groupInsert
          rw [h, mapGet_mapSet_self]
        rw [h1, Option.getD_some, List.filter_cons_of_pos (by simp [h])]
        exact ((insertByYield_perm ((mapGet acc t).getD []) x).append_right
          (xs.filter (fun e => strLower e.mineral.produces == t))).trans
          List.perm_middle.symm
      · have h1 : mapGet (groupInsert acc x) t = mapGet acc t := by
          unfold groupInsert
          exact mapGet_mapSet_ne acc (by simpa using h) _
        rw [h1, List.filter_cons_of_neg (by simp [h])]

/-- The mineral group stored under key `t` is a permutation of the stock
entries whose lower-cased produced type is `t`. -/
lemma group_perm (l : List MineralWithQuantity) (t : String) :
    ((mapGet (groupAndSortMinerals l) t).getD []).Perm
      (l.filter (fun e => strLower e.mineral.produces == t)) := by
  have h := group_foldl_perm l [] t
  simpa [groupAndSortMinerals] using h

lemma group_mem_subset {l : List MineralWithQuantity} {t : String}
    {e : MineralWithQuantity}
    (he : e ∈ (mapGet (groupAndSortMinerals l) t).getD []) :
    e ∈ l ∧ strLower e.mineral.produces = t := by
  have h := (group_perm l t).mem_iff.mp he
  have h2 := List.of_mem_filter h
  exact ⟨List.mem_of_mem_filter h, by simpa using h2⟩


/-! ### Decomposing a successful single batch -/

/-- `ComboConcat targetMb mineralsByType comps tail`: `tail` is the
concatenation, one per component of `comps` in order, of combinations
emitted by the per-component search over that component's group. -/
inductive ComboConcat (targetMb : ℚ)
    (mineralsByType : List (String × List MineralWithQuantity)) :
    List AlloyComponent → List MineralWithQuantity → Prop
  | nil : ComboConcat targetMb mineralsByType [] []
  | cons (component : AlloyComponent) {rest : List AlloyComponent}
      {combo tail : List MineralWithQuantity} :
      combo ∈ (generateComponentCombinations
          ((mapGet mineralsByType (strLower component.mineral)).getD [])
          (component.min / 100 * targetMb) (component.max / 100 * targetMb)).combinations →
      ComboConcat targetMb mineralsByType rest tail →
      ComboConcat targetMb mineralsByType (component :: rest) (combo ++ tail)

lemma comboConcat_nil_inv {targetMb : ℚ}
    {mineralsByType : List (String × List MineralWithQuantity)}
    {tail : List MineralWithQuantity}
    (h : ComboConcat targetMb mineralsByType [] tail) : tail = [] := by
  cases h
  rfl

lemma singleBatchGo_success (targetMb : ℚ) (sortedComponents : List AlloyComponent)
    (mineralsByType : List (String × List MineralWithQuantity)) :
    ∀ (remaining : List AlloyComponent) (current : List MineralWithQuantity),
      (calculateSingleBatchGo targetMb sortedComponents mineralsByType
          remaining current).success = true →
      ∃ tail,
        (calculateSingleBatchGo targetMb sortedComponents mineralsByType
            remaining current).usedMinerals = current ++ tail ∧
        ComboConcat targetMb mineralsByType remaining tail ∧
        (calculateSingleBatchGo targetMb sortedComponents mineralsByType
            remaining current).outputMb = calculateTotalMb (current ++ tail) ∧
        (remaining ≠ [] →
          isValidWholeCombination targetMb sortedComponents (current ++ tail) = true) := by
  intro remaining
  induction remaining with
  | nil =>
      intro current _
      exact ⟨[], by simp [calculateSingleBatchGo], ComboConcat.nil,
        by simp [calculateSingleBatchGo], by simp⟩
  | cons component rest ih =>
      intro current hs
      rw [calculateSingleBatchGo] at hs ⊢
      cases hcomb : (generateComponentCombinations
          ((mapGet mineralsByType (strLower component.mineral)).getD [])
          (component.min / 100 * targetMb)
          (component.max / 100 * targetMb)).combinations with
      | nil =>
          rw [hcomb] at hs
          exact absurd hs (by simp)
      | cons c0 restC =>
          rw [hcomb] at hs
          cases rest with
          | nil =>
              simp only [List.isEmpty_nil, if_true] at hs ⊢
              cases hfind : List.find?
                  (fun combination => isValidWholeCombination targetMb sortedComponents
                    (current ++ combination)) (c0 :: restC) with
              | none =>
                  rw [hfind] at hs
                  exact absurd hs (by simp)
              | some comb =>
                  rw [hfind] at hs
                  obtain ⟨tail', hused, hcc, hout, _⟩ := ih (current ++ comb) hs
                  rw [comboConcat_nil_inv hcc, List.append_nil] at hused hout
                  have hmem : comb ∈ (c0 :: restC) := List.mem_of_find?_eq_some hfind
                  have hvalid := List.find?_some hfind
                  refine ⟨comb, hused, ?_, hout, fun _ => by simpa using hvalid⟩
                  have : comb = comb ++ [] := by simp
                  rw [this]
                  exact ComboConcat.cons component (by rw [hcomb]; exact hmem) ComboConcat.nil
          | cons d ds =>
              simp only [List.isEmpty_cons, if_false, Bool.false_eq_true] at hs ⊢
              obtain ⟨tail', hused, hcc, hout, hvalid⟩ := ih (current ++ c0) hs
              refine ⟨c0 ++ tail', by simpa [List.append_assoc] using hused,
                ComboConcat.cons component (by rw [hcomb]; simp) hcc,
                by simpa [List.append_assoc] using hout,
                fun _ => by simpa [List.append_assoc] using hvalid (by simp)⟩


lemma insertComponentByMin_perm (c : AlloyComponent) (l : List AlloyComponent) :
    (insertComponentByMin c l).Perm (c :: l) := by
  induction l with
  | nil => simp [insertComponentByMin]
  | cons d rest ih =>
      unfold insertComponentByMin
      split
      · exact List.Perm.refl _
      · exact (List.Perm.cons d ih).trans (List.Perm.swap c d rest)

lemma sortComponentsByMin_perm (l : List AlloyComponent) :
    (sortComponentsByMin l).Perm l := by
  induction l with
  | nil => simp [sortComponentsByMin]
  | cons c rest ih =>
      unfold sortComponentsByMin at ih ⊢
      rw [List.foldr_cons]
      exact (insertComponentByMin_perm c _).trans (List.Perm.cons c ih)

/-- Successful single batch, at the `calculateSingleBatch` interface. -/
lemma calculateSingleBatch_success {targetMb : ℚ} {components : List AlloyComponent}
    {avail : List MineralWithQuantity}
    (h : (calculateSingleBatch targetMb components avail).success = true) :
    ∃ tail,
      (calculateSingleBatch targetMb components avail).usedMinerals = tail ∧
      ComboConcat targetMb (groupAndSortMinerals avail) (sortComponentsByMin components) tail ∧
      (calculateSingleBatch targetMb components avail).outputMb = calculateTotalMb tail ∧
      (components ≠ [] →
        isValidWholeCombination targetMb (sortComponentsByMin components) tail = true) := by
  unfold calculateSingleBatch at h ⊢
  obtain ⟨tail, hused, hcc, hout, hvalid⟩ :=
    singleBatchGo_success targetMb (sortComponentsByMin components)
      (groupAndSortMinerals avail) (sortComponentsByMin components) [] h
  refine ⟨tail, by simpa using hused, hcc, by simpa using hout, fun hne => ?_⟩
  refine hvalid (fun hemp => hne ?_)
  have hp := sortComponentsByMin_perm components
  rw [hemp] at hp
  exact hp.symm.eq_nil

/-- Every entry of a successful batch's allocation picks a group entry:
its mineral occurs in the stock snapshot and its quantity is positive and
bounded by that entry's stock quantity. -/
lemma comboConcat_mem {targetMb : ℚ} {avail : List MineralWithQuantity}
    {comps : List AlloyComponent} {tail : List MineralWithQuantity}
    (hcc : ComboConcat targetMb (groupAndSortMinerals avail) comps tail) :
    ∀ e ∈ tail, ∃ g ∈ avail, e.mineral = g.mineral ∧ 1 ≤ e.quantity ∧ e.quantity ≤ g.quantity := by
  induction hcc with
  | nil => simp
  | cons component hmem hcc ih =>
      intro e he
      rcases List.mem_append.mp he with he | he
      · obtain ⟨g, hg, hge⟩ := (generateComponentCombinations_subsel hmem).mem e he
        obtain ⟨hgavail, _⟩ := group_mem_subset hg
        exact ⟨g, hgavail, hge⟩
      · exact ih e he

/-! ### Scaling lemmas -/

lemma sum_map_mul_right {α : Type} (l : List α) (f : α → ℚ) (c : ℚ) :
    (l.map (fun x => f x * c)).sum = (l.map f).sum * c := by
  induction l with
  | nil => simp
  | cons x xs ih =>
      simp only [List.map_cons, List.sum_cons, ih]
      ring

lemma scaleBatch_totalMb (b : AlloyProductionResult) (s : ℕ) :
    calculateTotalMb (scaleBatch b s).usedMinerals
      = calculateTotalMb b.usedMinerals * s := by
  unfold scaleBatch
  simp only [calculateTotalMb_eq, List.map_map]
  rw [← sum_map_mul_right]
  congr 1
  refine List.map_congr_left (fun e _ => ?_)
  simp only [mbOf, Function.comp_apply]
  push_cast
  ring

lemma scaleBatch_mem {b : AlloyProductionResult} {s : ℕ} {e : MineralWithQuantity}
    (he : e ∈ (scaleBatch b s).usedMinerals) :
    ∃ u ∈ b.usedMinerals, e.mineral = u.mineral ∧ e.quantity = u.quantity * s := by
  unfold scaleBatch at he
  simp only [List.mem_map] at he
  obtain ⟨u, hu, rfl⟩ := he
  exact ⟨u, hu, rfl, rfl⟩

/-- The scaled (or unscaled) batch result appended by one successful loop
iteration. -/
def scaledBatchOf (components : List AlloyComponent)
    (avail : List MineralWithQuantity) (c : ℕ) : AlloyProductionResult :=
  if 1 < calculateViableBatchScale (calculateSingleBatch (c : ℚ) components avail) avail then
    scaleBatch (calculateSingleBatch (c : ℚ) components avail)
      (calculateViableBatchScale (calculateSingleBatch (c : ℚ) components avail) avail)
  else calculateSingleBatch (c : ℚ) components avail

lemma batchLoopBody_success_spec {components : List AlloyComponent}
    {st : BatchLoopState} {c : ℕ}
    (h : (calculateSingleBatch (c : ℚ) components st.availableMinerals).success = true) :
    (batchLoopBody components st c).batchResults
        = st.batchResults ++ [scaledBatchOf components st.availableMinerals c] ∧
    (batchLoopBody components st c).availableMinerals
        = updateAvailableMinerals st.availableMinerals
            (scaledBatchOf components st.availableMinerals c).usedMinerals := by
  unfold batchLoopBody scaledBatchOf
  simp [h]

lemma batchLoopBody_failure_spec {components : List AlloyComponent}
    {st : BatchLoopState} {c : ℕ}
    (h : (calculateSingleBatch (c : ℚ) components st.availableMinerals).success = false) :
    (batchLoopBody components st c).batchResults = st.batchResults ∧
    (batchLoopBody components st c).availableMinerals = st.availableMinerals := by
  unfold batchLoopBody
  simp [h]

/-- Generic invariant for the batch loop: any property of the accumulated
batch list and the stock snapshot preserved by one successful (scaled)
iteration holds at the end of the loop. -/
lemma batchLoopF_invariant (components : List AlloyComponent)
    (I : List AlloyProductionResult → List MineralWithQuantity → Prop)
    (hstep : ∀ (brs : List AlloyProductionResult) (avail : List MineralWithQuantity) (c : ℕ),
      0 < c →
      (calculateSingleBatch (c : ℚ) components avail).success = true → I brs avail →
      I (brs ++ [scaledBatchOf components avail c])
        (updateAvailableMinerals avail (scaledBatchOf components avail c).usedMinerals)) :
    ∀ (fuel : ℕ) (st : BatchLoopState) (n : ℕ),
      I st.batchResults st.availableMinerals →
      I (batchLoopF components fuel st n).batchResults
        (batchLoopF components fuel st n).availableMinerals := by
  intro fuel
  induction fuel with
  | zero => intro st n hI; simpa [batchLoopF] using hI
  | succ fuel ih =>
      intro st n hI
      rw [batchLoopF]
      by_cases hrem : 0 < st.remainingMb
      · rw [if_pos hrem]
        cases hg : getNextBatchSize st.remainingMb n with
        | none => exact hI
        | some c =>
            have hc := (getNextBatchSize_spec hg).2.1
            cases hsucc : (calculateSingleBatch (c : ℚ) components
                st.availableMinerals).success with
            | true =>
                obtain ⟨hb, ha⟩ := @batchLoopBody_success_spec components
                  { st with batchRunCount := st.batchRunCount + 1 } c hsucc
                refine ih _ c ?_
                rw [hb, ha]
                exact hstep _ _ c hc hsucc hI
            | false =>
                obtain ⟨hb, ha⟩ := @batchLoopBody_failure_spec components
                  { st with batchRunCount := st.batchRunCount + 1 } c hsucc
                refine ih _ c ?_
                rw [hb, ha]
                exact hI
      · rw [if_neg hrem]
        exact hI

/-- A successful batched search reports the consolidated allocation of its
batch results, whose outputs cover the target. -/
lemma findValidCombinationBatched_success {targetMb : ℚ}
    {components : List AlloyComponent} {stock : List MineralWithQuantity}
    (h : (findValidCombinationBatched targetMb components stock).success = true) :
    (findValidCombinationBatched targetMb components stock).usedMinerals
        = getFinalMinerals (batchLoopRun components targetMb stock).batchResults ∧
    targetMb ≤ ((batchLoopRun components targetMb stock).batchResults.map (·.outputMb)).sum := by
  simp only [findValidCombinationBatched] at h ⊢
  split at h
  next hge =>
    rw [if_pos hge]
    exact ⟨rfl, hge⟩
  next hge => exact absurd h (by simp)

lemma calculateAlloy_success_shape {targetMb : ℚ} {targetAlloy : Alloy}
    {stock : List MineralWithQuantity} {t1 t2 : ℚ}
    (h : (calculateAlloy targetMb targetAlloy stock t1 t2).success = true) :
    (calculateAlloy targetMb targetAlloy stock t1 t2).usedMinerals
        = (findValidCombinationBatched targetMb targetAlloy.components stock).usedMinerals ∧
    (findValidCombinationBatched targetMb targetAlloy.components stock).success = true := by
  simp only [calculateAlloy] at h ⊢
  split at h
  next hlt => exact absurd h (by simp)
  next hlt =>
    split at h
    next msg heq => exact absurd h (by simp)
    next heq =>
      split at h
      next hsucc =>
        rw [if_neg hlt, if_pos hsucc]
        exact ⟨rfl, hsucc⟩
      next hsucc => exact absurd h (by simp)


/-! ### Association-list decomposition and consolidation -/

lemma mapSet_mem_cases {α : Type} {m : List (String × α)} {k : String} {v : α}
    {p : String × α} (hp : p ∈ mapSet m k v) : p ∈ m ∨ p = (k, v) := by
  induction m with
  | nil => simpa [mapSet] using hp
  | cons q rest ih =>
      obtain ⟨k', w⟩ := q
      unfold mapSet at hp
      split at hp
      · rcases List.mem_cons.mp hp with rfl | hp
        · next he => exact Or.inr (by rw [he])
        · exact Or.inl (by simp [hp])
      · rcases List.mem_cons.mp hp with rfl | hp
        · exact Or.inl (by simp)
        · rcases ih hp with hp | hp
          · exact Or.inl (by simp [hp])
          · exact Or.inr hp

lemma mapDelete_subset {α : Type} {m : List (String × α)} {k : String}
    {p : String × α} (hp : p ∈ mapDelete m k) : p ∈ m := by
  induction m with
  | nil => simp [mapDelete] at hp
  | cons q rest ih =>
      obtain ⟨k', w⟩ := q
      unfold mapDelete at hp
      split at hp
      · simp [hp]
      · rcases List.mem_cons.mp hp with rfl | hp
        · simp
        · simp [ih hp]

lemma mapGet_mem {α : Type} {m : List (String × α)} {k : String} {v : α}
    (h : mapGet m k = some v) : (k, v) ∈ m := by
  induction m with
  | nil => simp [mapGet] at h
  | cons q rest ih =>
      obtain ⟨k', w⟩ := q
      unfold mapGet at h
      split at h
      · next he => cases h; rw [he]; simp
      · simp [ih h]

lemma mapGet_decomp {α : Type} {m : List (String × α)} {k : String} {v : α}
    (h : mapGet m k = some v) :
    ∃ m1 m2, m = m1 ++ (k, v) :: m2 ∧ (∀ p ∈ m1, p.1 ≠ k) ∧
      (∀ v' : α, mapSet m k v' = m1 ++ (k, v') :: m2) := by
  induction m with
  | nil => simp [mapGet] at h
  | cons q rest ih =>
      obtain ⟨k', w⟩ := q
      by_cases hk : k' = k
      · subst hk
        rw [show mapGet ((k', w) :: rest) k' = some w by simp [mapGet]] at h
        cases h
        exact ⟨[], rest, by simp, by simp, fun v' => by simp [mapSet]⟩
      · rw [show mapGet ((k', w) :: rest) k = mapGet rest k by simp [mapGet, hk]] at h
        obtain ⟨m1, m2, he, hne, hset⟩ := ih h
        exact ⟨(k', w) :: m1, m2, by simp [he], by
            intro p hp
            rcases List.mem_cons.mp hp with rfl | hp
            · simpa using hk
            · exact hne p hp,
          fun v' => by simp [mapSet, hk, hset v']⟩

lemma mapGet_none_mapSet {α : Type} {m : List (String × α)} {k : String}
    (h : mapGet m k = none) (v : α) : mapSet m k v = m ++ [(k, v)] := by
  induction m with
  | nil => simp [mapSet]
  | cons q rest ih =>
      obtain ⟨k', w⟩ := q
      unfold mapGet at h
      split at h
      · cases h
      · next hk => simp [mapSet, hk, ih h]

/-- Weighted volume of a list of stock entries. -/
def wsum (w : Mineral → ℚ) (l : List MineralWithQuantity) : ℚ :=
  (l.map (fun e => w e.mineral * e.quantity)).sum

lemma wsum_nil (w : Mineral → ℚ) : wsum w [] = 0 := rfl

lemma wsum_cons (w : Mineral → ℚ) (x : MineralWithQuantity) (l : List MineralWithQuantity) :
    wsum w (x :: l) = w x.mineral * x.quantity + wsum w l := by
  simp [wsum]

lemma wsum_append (w : Mineral → ℚ) (a b : List MineralWithQuantity) :
    wsum w (a ++ b) = wsum w a + wsum w b := by
  simp [wsum]

lemma calculateTotalMb_eq_wsum (l : List MineralWithQuantity) :
    calculateTotalMb l = wsum (fun m => (m.yield : ℚ)) l := by
  rw [calculateTotalMb_eq]
  unfold wsum
  congr 1
  refine List.map_congr_left (fun e _ => ?_)
  simp only [mbOf]
  push_cast
  ring

lemma consolidateStep_get_some {acc : List (String × MineralWithQuantity)}
    {b existing : MineralWithQuantity}
    (hget : mapGet acc b.mineral.name = some existing) :
    consolidateStep acc b = mapSet acc b.mineral.name
      { existing with quantity := existing.quantity + b.quantity } := by
  unfold consolidateStep
  rw [hget]

lemma consolidateStep_get_none {acc : List (String × MineralWithQuantity)}
    {b : MineralWithQuantity} (hget : mapGet acc b.mineral.name = none) :
    consolidateStep acc b = mapSet acc b.mineral.name b := by
  unfold consolidateStep
  rw [hget]

lemma consolidateStep_foldl_wsum (w : Mineral → ℚ) :
    ∀ (todo : List MineralWithQuantity) (acc : List (String × MineralWithQuantity)),
      (∀ p ∈ acc, p.1 = p.2.mineral.name) →
      (∀ p ∈ acc, ∀ b ∈ todo, p.2.mineral.name = b.mineral.name → p.2.mineral = b.mineral) →
      (∀ a ∈ todo, ∀ b ∈ todo, a.mineral.name = b.mineral.name → a.mineral = b.mineral) →
      wsum w ((todo.foldl consolidateStep acc).map Prod.snd)
        = wsum w (acc.map Prod.snd) + wsum w todo := by
  intro todo
  induction todo with
  | nil => intro acc _ _ _; simp [wsum]
  | cons b rest ih =>
      intro acc hkey hcross hdet
      rw [List.foldl_cons]
      have hstep : wsum w ((consolidateStep acc b).map Prod.snd)
            = wsum w (acc.map Prod.snd) + w b.mineral * b.quantity ∧
          (∀ p ∈ consolidateStep acc b, p.1 = p.2.mineral.name) ∧
          (∀ p ∈ consolidateStep acc b, ∀ c ∈ rest,
            p.2.mineral.name = c.mineral.name → p.2.mineral = c.mineral) := by
        cases hget : mapGet acc b.mineral.name with
        | some existing =>
            have hmem := mapGet_mem hget
            have hkeyx := hkey _ hmem
            have hmin : existing.mineral = b.mineral :=
              hcross _ hmem b (by simp) (by rw [← hkeyx])
            obtain ⟨m1, m2, hdec, hne, hset⟩ := mapGet_decomp hget
            rw [consolidateStep_get_some hget, hset]
            refine ⟨?_, ?_, ?_⟩
            · conv_rhs => rw [hdec]
              simp only [List.map_append, List.map_cons, wsum_append, wsum_cons, hmin]
              push_cast
              ring
            · intro p hp
              rcases List.mem_append.mp hp with hp | hp
              · exact hkey p (by rw [hdec]; simp [hp])
              · rcases List.mem_cons.mp hp with rfl | hp
                · simpa using hkeyx
                · exact hkey p (by rw [hdec]; simp [hp])
            · intro p hp c hc
              rcases List.mem_append.mp hp with hp | hp
              · exact hcross p (by rw [hdec]; simp [hp]) c (by simp [hc])
              · rcases List.mem_cons.mp hp with rfl | hp
                · simpa [hmin] using fun hn => hdet b (by simp) c (by simp [hc]) hn
                · exact hcross p (by rw [hdec]; simp [hp]) c (by simp [hc])
        | none =>
            rw [consolidateStep_get_none hget, mapGet_none_mapSet hget]
            refine ⟨?_, ?_, ?_⟩
            · simp [wsum]
            · intro p hp
              rcases List.mem_append.mp hp with hp | hp
              · exact hkey p hp
              · rw [List.mem_singleton.mp hp]
            · intro p hp c hc
              rcases List.mem_append.mp hp with hp | hp
              · exact hcross p hp c (by simp [hc])
              · rw [List.mem_singleton.mp hp]
                exact fun hn => hdet b (by simp) c (by simp [hc]) hn
      obtain ⟨hw, hkey2, hcross2⟩ := hstep
      rw [ih (consolidateStep acc b) hkey2 hcross2
          (fun a ha c hc => hdet a (by simp [ha]) c (by simp [hc])), hw, wsum_cons]
      ring

lemma consolidate_wsum (w : Mineral → ℚ) (l : List MineralWithQuantity)
    (hdet : ∀ a ∈ l, ∀ b ∈ l, a.mineral.name = b.mineral.name → a.mineral = b.mineral) :
    wsum w (consolidateMinerals l) = wsum w l := by
  unfold consolidateMinerals
  split
  · rfl
  · rw [consolidateStep_foldl_wsum w l [] (by simp) (by simp) hdet]
    simp [wsum]


/-! ### C1: allocation volume versus reported output -/

lemma updateSubtract_get_some {acc : List (String × MineralWithQuantity)}
    {u current : MineralWithQuantity}
    (hget : mapGet acc u.mineral.name = some current) :
    updateSubtract acc u =
      if current.quantity ≤ u.quantity then mapDelete acc u.mineral.name
      else mapSet acc u.mineral.name
             { current with quantity := current.quantity - u.quantity } := by
  unfold updateSubtract
  rw [hget]

lemma updateSubtract_get_none {acc : List (String × MineralWithQuantity)}
    {u : MineralWithQuantity} (hget : mapGet acc u.mineral.name = none) :
    updateSubtract acc u = acc := by
  unfold updateSubtract
  rw [hget]

lemma foldl_updateSubtract_values {P : Mineral → Prop} :
    ∀ (used : List MineralWithQuantity) (acc : List (String × MineralWithQuantity)),
      (∀ p ∈ acc, P p.2.mineral) →
      ∀ p ∈ used.foldl updateSubtract acc, P p.2.mineral := by
  intro used
  induction used with
  | nil => intro acc hacc; simpa using hacc
  | cons u rest ih =>
      intro acc hacc
      rw [List.foldl_cons]
      refine ih (updateSubtract acc u) ?_
      intro p hp
      cases hget : mapGet acc u.mineral.name with
      | some current =>
          rw [updateSubtract_get_some hget] at hp
          split at hp
          · exact hacc p (mapDelete_subset hp)
          · rcases mapSet_mem_cases hp with hp | hp
            · exact hacc p hp
            · rw [hp]
              exact hacc (u.mineral.name, current) (mapGet_mem hget)
      | none =>
          rw [updateSubtract_get_none hget] at hp
          exact hacc p hp

lemma buildMap_values {P : Mineral → Prop} :
    ∀ (cur : List MineralWithQuantity) (acc : List (String × MineralWithQuantity)),
      (∀ p ∈ acc, P p.2.mineral) → (∀ m ∈ cur, P m.mineral) →
      ∀ p ∈ cur.foldl (fun acc m => mapSet acc m.mineral.name m) acc, P p.2.mineral := by
  intro cur
  induction cur with
  | nil => intro acc hacc _; simpa using hacc
  | cons m rest ih =>
      intro acc hacc hcur
      rw [List.foldl_cons]
      refine ih _ ?_ (fun x hx => hcur x (by simp [hx]))
      intro p hp
      rcases mapSet_mem_cases hp with hp | hp
      · exact hacc p hp
      · rw [hp]
        exact hcur m (by simp)

lemma update_minerals_subset {cur used : List MineralWithQuantity}
    {e : MineralWithQuantity} (he : e ∈ updateAvailableMinerals cur used) :
    e.mineral ∈ cur.map (fun x => x.mineral) := by
  unfold updateAvailableMinerals at he
  simp only [List.mem_map] at he
  obtain ⟨p, hp, rfl⟩ := he
  refine foldl_updateSubtract_values used _ ?_ p hp
  refine buildMap_values cur [] (by simp) ?_
  intro m hm
  exact List.mem_map.mpr ⟨m, hm, rfl⟩

lemma calculateTotalMb_flatten (L : List (List MineralWithQuantity)) :
    calculateTotalMb L.flatten = (L.map calculateTotalMb).sum := by
  induction L with
  | nil => simp [calculateTotalMb]
  | cons x xs ih => simp [List.flatten_cons, calculateTotalMb_append, ih]

lemma scaledBatchOf_spec {components : List AlloyComponent}
    {avail : List MineralWithQuantity} {c : ℕ}
    (hsucc : (calculateSingleBatch (c : ℚ) components avail).success = true) :
    (scaledBatchOf components avail c).outputMb
        = calculateTotalMb (scaledBatchOf components avail c).usedMinerals ∧
    ∀ e ∈ (scaledBatchOf components avail c).usedMinerals,
      e.mineral ∈ avail.map (fun x => x.mineral) := by
  obtain ⟨tail, hused, hcc, hout, _⟩ := calculateSingleBatch_success hsucc
  rw [← hused] at hcc hout
  have hmem : ∀ e ∈ (calculateSingleBatch (c : ℚ) components avail).usedMinerals,
      e.mineral ∈ avail.map (fun x => x.mineral) := by
    intro e he
    obtain ⟨g, hg, hge, _⟩ := comboConcat_mem hcc e he
    exact List.mem_map.mpr ⟨g, hg, hge.symm⟩
  unfold scaledBatchOf
  split
  · constructor
    · rw [scaleBatch_totalMb]
      show (calculateSingleBatch (c : ℚ) components avail).outputMb * _ = _
      rw [hout]
    · intro e he
      obtain ⟨u, hu, hue, _⟩ := scaleBatch_mem he
      rw [hue]
      exact hmem u hu
  · exact ⟨hout, hmem⟩


/-- C1 counterexample: a successful solve whose allocation volume differs
from the reported `outputMb`.  The single accepted batch (one unit of the
144-yield mineral) is scaled by the stock-feasible factor 10 without being
capped at the remaining volume, so the allocation carries 1440 mB while
`outputMb` reports the 144 mB target. -/
theorem c1_cex :
    (calculateAlloy 144 (Alloy.mk "X" [⟨"x", 100, 100⟩])
        [⟨⟨"M", "x", 144⟩, 10⟩] 0 0).success = true ∧
    calculateTotalMb (calculateAlloy 144 (Alloy.mk "X" [⟨"x", 100, 100⟩])
        [⟨⟨"M", "x", 144⟩, 10⟩] 0 0).usedMinerals ≠
      (calculateAlloy 144 (Alloy.mk "X" [⟨"x", 100, 100⟩])
        [⟨⟨"M", "x", 144⟩, 10⟩] 0 0).outputMb := by
  with_unfolding_all decide

/-- C1 amended: for stock in which the mineral name determines the mineral
(the data model's unique-identity invariant), on success the sum over the
returned allocation of `quantity * yieldPerUnit` is at least the reported
`outputMb` (equality can fail because an accepted batch is scaled by the
largest stock-feasible factor without being capped at the remaining
volume). -/
theorem c1_amended (targetMb : ℚ) (targetAlloy : Alloy) (stock : List MineralWithQuantity)
    (t1 t2 : ℚ)
    (hdet : ∀ a ∈ stock, ∀ b ∈ stock, a.mineral.name = b.mineral.name → a.mineral = b.mineral)
    (h : (calculateAlloy targetMb targetAlloy stock t1 t2).success = true) :
    (calculateAlloy targetMb targetAlloy stock t1 t2).outputMb
      ≤ calculateTotalMb (calculateAlloy targetMb targetAlloy stock t1 t2).usedMinerals := by
  obtain ⟨hused, hfvc⟩ := calculateAlloy_success_shape h
  obtain ⟨husedf, hsum⟩ := findValidCombinationBatched_success hfvc
  have hout := calculateAlloy_success_outputMb targetMb targetAlloy stock t1 t2 h
  have hinv := batchLoopF_invariant targetAlloy.components
      (fun brs avail =>
        (∀ b ∈ brs, b.outputMb = calculateTotalMb b.usedMinerals ∧
            ∀ e ∈ b.usedMinerals, e.mineral ∈ stock.map (fun x => x.mineral)) ∧
        (∀ e ∈ avail, e.mineral ∈ stock.map (fun x => x.mineral)))
      (fun brs avail c _hc hsucc hI => by
        obtain ⟨hbrs, havail⟩ := hI
        obtain ⟨hsout, hsmem⟩ := scaledBatchOf_spec hsucc
        have havmem : ∀ e ∈ (scaledBatchOf targetAlloy.components avail c).usedMinerals,
            e.mineral ∈ stock.map (fun x => x.mineral) := by
          intro e he
          obtain ⟨g, hg, hge⟩ := List.mem_map.mp (hsmem e he)
          rw [← hge]
          exact havail g hg
        refine ⟨?_, ?_⟩
        · intro b hb
          rcases List.mem_append.mp hb with hb | hb
          · exact hbrs b hb
          · rw [List.mem_singleton.mp hb]
            exact ⟨hsout, havmem⟩
        · intro e he
          obtain ⟨g, hg, hge⟩ := List.mem_map.mp (update_minerals_subset he)
          rw [← hge]
          exact havail g hg)
      (MAX_BATCH_MB + 1)
      { batchResults := [], remainingMb := targetMb, availableMinerals := stock,
        batchRunCount := 0, batchAcceptCount := 0, batchDeclineCount := 0,
        batchScaleEfficiency := 0, batchBacktrackPotential := 0, attempted := [] }
      MAX_BATCH_MB
      ⟨by simp, fun e he => List.mem_map.mpr ⟨e, he, rfl⟩⟩
  have hbrm : (batchLoopRun targetAlloy.components targetMb stock).batchResults
      = (batchLoopF targetAlloy.components (MAX_BATCH_MB + 1)
          { batchResults := [], remainingMb := targetMb, availableMinerals := stock,
            batchRunCount := 0, batchAcceptCount := 0, batchDeclineCount := 0,
            batchScaleEfficiency := 0, batchBacktrackPotential := 0, attempted := [] }
          MAX_BATCH_MB).batchResults := rfl
  obtain ⟨hbrs, _⟩ := hinv
  rw [← hbrm] at hbrs
  set brs := (batchLoopRun targetAlloy.components targetMb stock).batchResults with hbrsdef
  rw [hout, hused, husedf]
  have hflatmem : ∀ e ∈ (brs.map (fun b => b.usedMinerals)).flatten,
      e.mineral ∈ stock.map (fun x => x.mineral) := by
    intro e he
    obtain ⟨l, hl, hel⟩ := List.mem_flatten.mp he
    obtain ⟨b, hb, rfl⟩ := List.mem_map.mp hl
    exact (hbrs b hb).2 e hel
  have hdetflat : ∀ a ∈ (brs.map (fun b => b.usedMinerals)).flatten,
      ∀ b ∈ (brs.map (fun b => b.usedMinerals)).flatten,
      a.mineral.name = b.mineral.name → a.mineral = b.mineral := by
    intro a ha b hb hn
    obtain ⟨sa, hsa, hsae⟩ := List.mem_map.mp (hflatmem a ha)
    obtain ⟨sb, hsb, hsbe⟩ := List.mem_map.mp (hflatmem b hb)
    rw [← hsae, ← hsbe] at hn ⊢
    exact hdet sa hsa sb hsb hn
  unfold getFinalMinerals
  rw [calculateTotalMb_eq_wsum, consolidate_wsum _ _ hdetflat, ← calculateTotalMb_eq_wsum,
    calculateTotalMb_flatten, List.map_map]
  have hcongr : (brs.map (calculateTotalMb ∘ fun b => b.usedMinerals)).sum
      = (brs.map (fun b => b.outputMb)).sum := by
    congr 1
    refine List.map_congr_left (fun b hb => ?_)
    exact ((hbrs b hb).1).symm
  rw [hcongr]
  exact hsum

theorem c1_witness :
    ((∀ a ∈ [MineralWithQuantity.mk ⟨"M", "x", 144⟩ 10],
        ∀ b ∈ [MineralWithQuantity.mk ⟨"M", "x", 144⟩ 10],
        a.mineral.name = b.mineral.name → a.mineral = b.mineral) ∧
      (calculateAlloy 144 (Alloy.mk "X" [⟨"x", 100, 100⟩])
        [⟨⟨"M", "x", 144⟩, 10⟩] 0 0).success = true) ∧
    (calculateAlloy 144 (Alloy.mk "X" [⟨"x", 100, 100⟩])
        [⟨⟨"M", "x", 144⟩, 10⟩] 0 0).outputMb
      ≤ calculateTotalMb (calculateAlloy 144 (Alloy.mk "X" [⟨"x", 100, 100⟩])
        [⟨⟨"M", "x", 144⟩, 10⟩] 0 0).usedMinerals :=
  ⟨⟨by with_unfolding_all decide, by with_unfolding_all decide⟩,
   c1_amended 144 (Alloy.mk "X" [⟨"x", 100, 100⟩]) [⟨⟨"M", "x", 144⟩, 10⟩] 0 0
     (by with_unfolding_all decide) (by with_unfolding_all decide)⟩


/-! ### Per-type volumes and validation unpacking -/

/-- Weight selecting minerals of (lower-cased) produced type `t`. -/
def typeWeight (t : String) : Mineral → ℚ :=
  fun m => if strLower m.produces = t then (m.yield : ℚ) else 0

/-- Volume contributed by minerals of produced type `t` (case-insensitive). -/
def typeMbOf (t : String) (l : List MineralWithQuantity) : ℚ :=
  wsum (typeWeight t) l

/-- Weight used by the source validation: raw `produces` key. -/
def rawTypeWeight (t : String) : Mineral → ℚ :=
  fun m => if m.produces = t then (m.yield : ℚ) else 0

lemma wsum_congr {w1 w2 : Mineral → ℚ} {l : List MineralWithQuantity}
    (h : ∀ e ∈ l, w1 e.mineral = w2 e.mineral) : wsum w1 l = wsum w2 l := by
  unfold wsum
  congr 1
  exact List.map_congr_left (fun e he => by rw [h e he])

lemma wsum_scaleBatch (w : Mineral → ℚ) (b : AlloyProductionResult) (s : ℕ) :
    wsum w (scaleBatch b s).usedMinerals = wsum w b.usedMinerals * s := by
  unfold scaleBatch wsum
  simp only [List.map_map]
  rw [← sum_map_mul_right]
  congr 1
  refine List.map_congr_left (fun e _ => ?_)
  simp only [Function.comp_apply]
  push_cast
  ring

lemma wsum_flatten (w : Mineral → ℚ) (L : List (List MineralWithQuantity)) :
    wsum w L.flatten = (L.map (wsum w)).sum := by
  induction L with
  | nil => simp [wsum]
  | cons x xs ih => simp [List.flatten_cons, wsum_append, ih]

/-- The total volume of a list of stock entries is a natural number. -/
lemma calculateTotalMb_nat (l : List MineralWithQuantity) :
    ∃ n : ℕ, calculateTotalMb l = (n : ℚ) := by
  induction l with
  | nil => exact ⟨0, by simp [calculateTotalMb]⟩
  | cons x xs ih =>
      obtain ⟨n, hn⟩ := ih
      exact ⟨x.mineral.yield * x.quantity + n, by
        rw [calculateTotalMb_cons, hn]
        push_cast [mbOf]
        ring⟩

lemma mbByType_get (l : List MineralWithQuantity) (t : String) :
    (mapGet (mbByTypeOf l) t).getD 0 = wsum (rawTypeWeight t) l := by
  suffices h : ∀ acc, (mapGet (l.foldl mbByTypeStep acc) t).getD 0
      = (mapGet acc t).getD 0 + wsum (rawTypeWeight t) l by
    simpa [mbByTypeOf, mapGet] using h []
  induction l with
  | nil => intro acc; simp [wsum]
  | cons x xs ih =>
      intro acc
      rw [List.foldl_cons, ih, wsum_cons]
      by_cases h : x.mineral.produces = t
      · rw [show mbByTypeStep acc x = mapSet acc t
              ((mapGet acc t).getD 0 + ((x.mineral.yield * x.quantity : ℕ) : ℚ)) by
            unfold mbByTypeStep
            rw [h]]
        rw [mapGet_mapSet_self, Option.getD_some]
        unfold rawTypeWeight
        rw [if_pos h]
        push_cast
        ring
      · rw [show mapGet (mbByTypeStep acc x) t = mapGet acc t from
            mapGet_mapSet_ne acc (by simpa using h) _]
        unfold rawTypeWeight
        rw [if_neg h]
        ring

/-- Unpacking a passed whole-combination validation. -/
lemma isValidWhole_unpack {targetMb : ℚ} {comps : List AlloyComponent}
    {l : List MineralWithQuantity}
    (h : isValidWholeCombination targetMb comps l = true) :
    round (calculateTotalMb l) = round targetMb ∧
    ∀ c ∈ comps, calculateTotalMb l ≠ 0 ∧
      c.min ≤ wsum (rawTypeWeight (strLower c.mineral)) l / calculateTotalMb l * 100 ∧
      wsum (rawTypeWeight (strLower c.mineral)) l / calculateTotalMb l * 100 ≤ c.max := by
  simp only [isValidWholeCombination] at h
  split at h
  · cases h
  · next hround =>
      have h1 : round (calculateTotalMb l) = round targetMb := by
        have h0 := not_lt.mp hround
        have h2 := abs_nonneg (round (calculateTotalMb l) - round targetMb)
        have h3 := abs_eq_zero.mp (le_antisymm h0 h2)
        omega
      refine ⟨h1, ?_⟩
      intro c hc
      have h2 := List.all_eq_true.mp h c hc
      split at h2
      · cases h2
      · next hz =>
          simp only [Bool.and_eq_true, decide_eq_true_eq, ge_iff_le] at h2
          rw [mbByType_get] at h2
          exact ⟨hz, h2.1, h2.2⟩


/-! ### Per-batch percentage bounds -/

lemma rawTypeWeight_eq_typeWeight {stock : List MineralWithQuantity} {t : String}
    (hlower : ∀ e ∈ stock, strLower e.mineral.produces = e.mineral.produces)
    {m : Mineral} (hm : m ∈ stock.map (fun x => x.mineral)) :
    rawTypeWeight t m = typeWeight t m := by
  obtain ⟨e, he, rfl⟩ := List.mem_map.mp hm
  unfold rawTypeWeight typeWeight
  rw [hlower e he]

/-- A successful batch at an integral target satisfies, for every declared
component, the percentage band in linear (division-free) form, stated of the
scaled batch appended to the loop's results. -/
lemma scaledBatchOf_bounds {components : List AlloyComponent}
    {avail stock : List MineralWithQuantity} {c : ℕ}
    (hsucc : (calculateSingleBatch (c : ℚ) components avail).success = true)
    (hlower : ∀ e ∈ stock, strLower e.mineral.produces = e.mineral.produces)
    (havail : ∀ e ∈ avail, e.mineral ∈ stock.map (fun x => x.mineral)) :
    ∀ comp ∈ components,
      comp.min / 100 * calculateTotalMb (scaledBatchOf components avail c).usedMinerals
          ≤ typeMbOf (strLower comp.mineral) (scaledBatchOf components avail c).usedMinerals ∧
      typeMbOf (strLower comp.mineral) (scaledBatchOf components avail c).usedMinerals
          ≤ comp.max / 100 * calculateTotalMb (scaledBatchOf components avail c).usedMinerals := by
  intro comp hcomp
  obtain ⟨tail, hused, hcc, hout, hvalid⟩ := calculateSingleBatch_success hsucc
  rw [← hused] at hcc
  have hne : components ≠ [] := by
    intro he
    rw [he] at hcomp
    simp at hcomp
  have hv := hvalid hne
  rw [← hused] at hv
  obtain ⟨hround, hall⟩ := isValidWhole_unpack hv
  have hcompS : comp ∈ sortComponentsByMin components :=
    ((sortComponentsByMin_perm components).mem_iff).mpr hcomp
  obtain ⟨hTne, hlo, hhi⟩ := hall comp hcompS
  set used := (calculateSingleBatch (c : ℚ) components avail).usedMinerals with husedd
  set T := calculateTotalMb used with hTd
  have hT : 0 < T := lt_of_le_of_ne (calculateTotalMb_nonneg used) (Ne.symm hTne)
  have hmemstock : ∀ e ∈ used, e.mineral ∈ stock.map (fun x => x.mineral) := by
    intro e he
    obtain ⟨g, hg, hge, _⟩ := comboConcat_mem hcc e he
    rw [hge]
    exact havail g hg
  have hraw : wsum (rawTypeWeight (strLower comp.mineral)) used
      = typeMbOf (strLower comp.mineral) used := by
    refine wsum_congr (fun e he => ?_)
    exact rawTypeWeight_eq_typeWeight hlower (hmemstock e he)
  rw [hraw] at hlo hhi
  set M := typeMbOf (strLower comp.mineral) used with hMd
  have hlin1 : comp.min / 100 * T ≤ M := by
    have h1 := mul_le_mul_of_nonneg_right hlo (le_of_lt hT)
    have h2 : M / T * 100 * T = M * 100 := by
      field_simp
    rw [h2] at h1
    linarith
  have hlin2 : M ≤ comp.max / 100 * T := by
    have h1 := mul_le_mul_of_nonneg_right hhi (le_of_lt hT)
    have h2 : M / T * 100 * T = M * 100 := by
      field_simp
    rw [h2] at h1
    linarith
  unfold scaledBatchOf
  split
  · rw [scaleBatch_totalMb]
    unfold typeMbOf
    rw [wsum_scaleBatch]
    set s := calculateViableBatchScale (calculateSingleBatch (c : ℚ) components avail) avail
    have hs : (0 : ℚ) ≤ s := by positivity
    constructor
    · calc comp.min / 100 * (calculateTotalMb used * s)
          = comp.min / 100 * T * s := by rw [← hTd]; ring
        _ ≤ M * s := mul_le_mul_of_nonneg_right hlin1 hs
        _ = wsum (typeWeight (strLower comp.mineral)) used * s := by rw [hMd]; rfl
    · calc wsum (typeWeight (strLower comp.mineral)) used * s
          = M * s := by rw [hMd]; rfl
        _ ≤ comp.max / 100 * T * s := mul_le_mul_of_nonneg_right hlin2 hs
        _ = comp.max / 100 * (calculateTotalMb used * s) := by rw [← hTd]; ring
  · exact ⟨hlin1, hlin2⟩


/-! ### C3: percentage bands of the final allocation -/

lemma sum_map_mul_left {α : Type} (l : List α) (f : α → ℚ) (c : ℚ) :
    (l.map (fun x => c * f x)).sum = c * (l.map f).sum := by
  induction l with
  | nil => simp
  | cons x xs ih =>
      simp only [List.map_cons, List.sum_cons, ih]
      ring

/-- C3 counterexample: a successful solve whose true (case-insensitive) copper
share violates the first component's band.  The stock splits copper between
produces `"Copper"` and `"Copper"`-lower-cased entries, so the final raw-keyed
validation only sees part of the copper volume and accepts; the real copper
share is 26/144 ≈ 18 %, outside the declared `[7, 10]`. -/
theorem c3_cex :
    (calculateAlloy 144
        (Alloy.mk "Br" [⟨"copper", 7, 10⟩, ⟨"copper", 8, 9⟩, ⟨"tin", 81, 82⟩])
        [⟨⟨"A", "Copper", 14⟩, 1⟩, ⟨⟨"B", "copper", 12⟩, 1⟩, ⟨⟨"T", "tin", 118⟩, 1⟩]
        0 0).success = true ∧
    ¬ (typeMbOf "copper"
          (calculateAlloy 144
            (Alloy.mk "Br" [⟨"copper", 7, 10⟩, ⟨"copper", 8, 9⟩, ⟨"tin", 81, 82⟩])
            [⟨⟨"A", "Copper", 14⟩, 1⟩, ⟨⟨"B", "copper", 12⟩, 1⟩, ⟨⟨"T", "tin", 118⟩, 1⟩]
            0 0).usedMinerals
        / calculateTotalMb (calculateAlloy 144
            (Alloy.mk "Br" [⟨"copper", 7, 10⟩, ⟨"copper", 8, 9⟩, ⟨"tin", 81, 82⟩])
            [⟨⟨"A", "Copper", 14⟩, 1⟩, ⟨⟨"B", "copper", 12⟩, 1⟩, ⟨⟨"T", "tin", 118⟩, 1⟩]
            0 0).usedMinerals * 100 ≤ (10 : ℚ)) := by
  with_unfolding_all decide

/-- C3 amended: for a positive target and stock whose `produces` strings are
already lower-case (so raw-keyed validation and case-insensitive grouping
agree) and whose mineral name determines the mineral, every successful solve's
allocation satisfies each component's percentage band: the case-insensitive
per-type volume over the allocation's total volume, times 100, lies within
`[min, max]`. -/
theorem c3_amended (targetMb : ℚ) (targetAlloy : Alloy) (stock : List MineralWithQuantity)
    (t1 t2 : ℚ) (hpos : 0 < targetMb)
    (hlower : ∀ e ∈ stock, strLower e.mineral.produces = e.mineral.produces)
    (hdet : ∀ a ∈ stock, ∀ b ∈ stock, a.mineral.name = b.mineral.name → a.mineral = b.mineral)
    (h : (calculateAlloy targetMb targetAlloy stock t1 t2).success = true) :
    ∀ comp ∈ targetAlloy.components,
      comp.min ≤ typeMbOf (strLower comp.mineral)
            (calculateAlloy targetMb targetAlloy stock t1 t2).usedMinerals
          / calculateTotalMb (calculateAlloy targetMb targetAlloy stock t1 t2).usedMinerals
          * 100 ∧
      typeMbOf (strLower comp.mineral)
            (calculateAlloy targetMb targetAlloy stock t1 t2).usedMinerals
          / calculateTotalMb (calculateAlloy targetMb targetAlloy stock t1 t2).usedMinerals
          * 100 ≤ comp.max := by
  obtain ⟨hused, hfvc⟩ := calculateAlloy_success_shape h
  obtain ⟨husedf, hsum⟩ := findValidCombinationBatched_success hfvc
  have hinv := batchLoopF_invariant targetAlloy.components
      (fun brs avail =>
        (∀ b ∈ brs, b.outputMb = calculateTotalMb b.usedMinerals ∧
            (∀ e ∈ b.usedMinerals, e.mineral ∈ stock.map (fun x => x.mineral)) ∧
            ∀ comp ∈ targetAlloy.components,
              comp.min / 100 * calculateTotalMb b.usedMinerals
                  ≤ typeMbOf (strLower comp.mineral) b.usedMinerals ∧
              typeMbOf (strLower comp.mineral) b.usedMinerals
                  ≤ comp.max / 100 * calculateTotalMb b.usedMinerals) ∧
        (∀ e ∈ avail, e.mineral ∈ stock.map (fun x => x.mineral)))
      (fun brs avail c _hc hsucc hI => by
        obtain ⟨hbrs, havail⟩ := hI
        obtain ⟨hsout, hsmem⟩ := scaledBatchOf_spec hsucc
        have havmem : ∀ e ∈ (scaledBatchOf targetAlloy.components avail c).usedMinerals,
            e.mineral ∈ stock.map (fun x => x.mineral) := by
          intro e he
          obtain ⟨g, hg, hge⟩ := List.mem_map.mp (hsmem e he)
          rw [← hge]
          exact havail g hg
        refine ⟨?_, ?_⟩
        · intro b hb
          rcases List.mem_append.mp hb with hb | hb
          · exact hbrs b hb
          · rw [List.mem_singleton.mp hb]
            exact ⟨hsout, havmem, scaledBatchOf_bounds hsucc hlower havail⟩
        · intro e he
          obtain ⟨g, hg, hge⟩ := List.mem_map.mp (update_minerals_subset he)
          rw [← hge]
          exact havail g hg)
      (MAX_BATCH_MB + 1)
      { batchResults := [], remainingMb := targetMb, availableMinerals := stock,
        batchRunCount := 0, batchAcceptCount := 0, batchDeclineCount := 0,
        batchScaleEfficiency := 0, batchBacktrackPotential := 0, attempted := [] }
      MAX_BATCH_MB
      ⟨by simp, fun e he => List.mem_map.mpr ⟨e, he, rfl⟩⟩
  have hbrm : (batchLoopRun targetAlloy.components targetMb stock).batchResults
      = (batchLoopF targetAlloy.components (MAX_BATCH_MB + 1)
          { batchResults := [], remainingMb := targetMb, availableMinerals := stock,
            batchRunCount := 0, batchAcceptCount := 0, batchDeclineCount := 0,
            batchScaleEfficiency := 0, batchBacktrackPotential := 0, attempted := [] }
          MAX_BATCH_MB).batchResults := rfl
  obtain ⟨hbrs, _⟩ := hinv
  rw [← hbrm] at hbrs
  set brs := (batchLoopRun targetAlloy.components targetMb stock).batchResults with hbrsdef
  intro comp hcomp
  rw [hused, husedf]
  have hflatmem : ∀ e ∈ (brs.map (fun b => b.usedMinerals)).flatten,
      e.mineral ∈ stock.map (fun x => x.mineral) := by
    intro e he
    obtain ⟨l, hl, hel⟩ := List.mem_flatten.mp he
    obtain ⟨b, hb, rfl⟩ := List.mem_map.mp hl
    exact (hbrs b hb).2.1 e hel
  have hdetflat : ∀ a ∈ (brs.map (fun b => b.usedMinerals)).flatten,
      ∀ b ∈ (brs.map (fun b => b.usedMinerals)).flatten,
      a.mineral.name = b.mineral.name → a.mineral = b.mineral := by
    intro a ha b hb hn
    obtain ⟨sa, hsa, hsae⟩ := List.mem_map.mp (hflatmem a ha)
    obtain ⟨sb, hsb, hsbe⟩ := List.mem_map.mp (hflatmem b hb)
    rw [← hsae, ← hsbe] at hn ⊢
    exact hdet sa hsa sb hsb hn
  unfold getFinalMinerals
  unfold typeMbOf
  rw [consolidate_wsum _ _ hdetflat, calculateTotalMb_eq_wsum,
    consolidate_wsum _ _ hdetflat, ← calculateTotalMb_eq_wsum]
  have hT : calculateTotalMb (brs.map (fun b => b.usedMinerals)).flatten
      = (brs.map (fun b => b.outputMb)).sum := by
    rw [calculateTotalMb_flatten, List.map_map]
    congr 1
    refine List.map_congr_left (fun b hb => ?_)
    exact ((hbrs b hb).1).symm
  have hTpos : 0 < calculateTotalMb (brs.map (fun b => b.usedMinerals)).flatten := by
    rw [hT]
    exact lt_of_lt_of_le hpos hsum
  have hTsum : calculateTotalMb (brs.map (fun b => b.usedMinerals)).flatten
      = (brs.map (fun b => calculateTotalMb b.usedMinerals)).sum := by
    rw [calculateTotalMb_flatten, List.map_map]
    rfl
  have hM : wsum (typeWeight (strLower comp.mineral)) (brs.map (fun b => b.usedMinerals)).flatten
      = (brs.map (fun b => typeMbOf (strLower comp.mineral) b.usedMinerals)).sum := by
    rw [show wsum (typeWeight (strLower comp.mineral))
          (brs.map (fun b => b.usedMinerals)).flatten
        = wsum (typeWeight (strLower comp.mineral))
          ((brs.map (fun b => b.usedMinerals)).flatten) from rfl]
    rw [wsum_flatten, List.map_map]
    rfl
  have hlin1 : comp.min / 100 * calculateTotalMb (brs.map (fun b => b.usedMinerals)).flatten
      ≤ wsum (typeWeight (strLower comp.mineral))
          (brs.map (fun b => b.usedMinerals)).flatten := by
    rw [hTsum, hM, ← sum_map_mul_left]
    refine List.sum_le_sum (fun b hb => ?_)
    exact ((hbrs b hb).2.2 comp hcomp).1
  have hlin2 : wsum (typeWeight (strLower comp.mineral))
          (brs.map (fun b => b.usedMinerals)).flatten
      ≤ comp.max / 100 * calculateTotalMb (brs.map (fun b => b.usedMinerals)).flatten := by
    rw [hTsum, hM, ← sum_map_mul_left]
    refine List.sum_le_sum (fun b hb => ?_)
    exact ((hbrs b hb).2.2 comp hcomp).2
  set T := calculateTotalMb (brs.map (fun b => b.usedMinerals)).flatten with hTd
  set M := wsum (typeWeight (strLower comp.mineral))
      (brs.map (fun b => b.usedMinerals)).flatten with hMd
  constructor
  · rw [show M / T * 100 = M * 100 / T from by ring, le_div_iff₀ hTpos]
    linarith
  · rw [show M / T * 100 = M * 100 / T from by ring, div_le_iff₀ hTpos]
    linarith

/-- C3 witness: a concrete lower-case, name-determined success on which the
amended band property is instantiated. -/
theorem c3_witness :
    (0 : ℚ) < 144 ∧
    (calculateAlloy 144 (Alloy.mk "X" [⟨"x", 100, 100⟩])
        [⟨⟨"M", "x", 144⟩, 3⟩] 0 0).success = true ∧
    ∀ comp ∈ (Alloy.mk "X" [⟨"x", 100, 100⟩]).components,
      comp.min ≤ typeMbOf (strLower comp.mineral)
            (calculateAlloy 144 (Alloy.mk "X" [⟨"x", 100, 100⟩])
              [⟨⟨"M", "x", 144⟩, 3⟩] 0 0).usedMinerals
          / calculateTotalMb (calculateAlloy 144 (Alloy.mk "X" [⟨"x", 100, 100⟩])
              [⟨⟨"M", "x", 144⟩, 3⟩] 0 0).usedMinerals
          * 100 ∧
      typeMbOf (strLower comp.mineral)
            (calculateAlloy 144 (Alloy.mk "X" [⟨"x", 100, 100⟩])
              [⟨⟨"M", "x", 144⟩, 3⟩] 0 0).usedMinerals
          / calculateTotalMb (calculateAlloy 144 (Alloy.mk "X" [⟨"x", 100, 100⟩])
              [⟨⟨"M", "x", 144⟩, 3⟩] 0 0).usedMinerals
          * 100 ≤ comp.max :=
  ⟨by with_unfolding_all decide, by with_unfolding_all decide,
   c3_amended 144 (Alloy.mk "X" [⟨"x", 100, 100⟩]) [⟨⟨"M", "x", 144⟩, 3⟩] 0 0
     (by with_unfolding_all decide)
     (by with_unfolding_all decide)
     (by with_unfolding_all decide)
     (by with_unfolding_all decide)⟩


/-! ### C4: quantity ledger -/

lemma qtyByName_eq_zero {l : List MineralWithQuantity} {n : String}
    (h : ∀ e ∈ l, e.mineral.name ≠ n) : qtyByName l n = 0 := by
  induction l with
  | nil => rfl
  | cons x rest ih =>
      rw [qtyByName_cons, if_neg (h x (by simp)), ih (fun e he => h e (by simp [he]))]

lemma qtyByName_le_of_mem {l : List MineralWithQuantity} {g : MineralWithQuantity}
    (hg : g ∈ l) : g.quantity ≤ qtyByName l g.mineral.name := by
  induction l with
  | nil => simp at hg
  | cons x rest ih =>
      rw [qtyByName_cons]
      rcases List.mem_cons.mp hg with rfl | hg
      · rw [if_pos rfl]
        omega
      · have := ih hg
        split <;> omega

lemma values_names {m : List (String × MineralWithQuantity)}
    (hcoh : ∀ p ∈ m, p.2.mineral.name = p.1) :
    (m.map Prod.snd).map (fun e => e.mineral.name) = m.map Prod.fst := by
  rw [List.map_map]
  exact List.map_congr_left (fun p hp => hcoh p hp)

lemma mapGet_none_keys {α : Type} {m : List (String × α)} {k : String}
    (h : mapGet m k = none) : ∀ p ∈ m, p.1 ≠ k := by
  induction m with
  | nil => simp
  | cons q rest ih =>
      obtain ⟨k', w⟩ := q
      unfold mapGet at h
      split at h
      · cases h
      · next hk =>
          intro p hp
          rcases List.mem_cons.mp hp with rfl | hp
          · simpa using hk
          · exact ih h p hp

lemma mapGet_of_not_mem_keys {α : Type} {m : List (String × α)} {k : String}
    (h : k ∉ m.map Prod.fst) : mapGet m k = none := by
  induction m with
  | nil => rfl
  | cons q rest ih =>
      obtain ⟨k', w⟩ := q
      unfold mapGet
      simp only [List.map_cons, List.mem_cons, not_or] at h
      rw [if_neg (fun he => h.1 he.symm), ih h.2]

lemma mapDelete_decomp {α : Type} {m1 : List (String × α)} (m2 : List (String × α))
    {k : String} (v : α) (hne : ∀ p ∈ m1, p.1 ≠ k) :
    mapDelete (m1 ++ (k, v) :: m2) k = m1 ++ m2 := by
  induction m1 with
  | nil => simp [mapDelete]
  | cons q rest ih =>
      obtain ⟨k', w⟩ := q
      rw [List.cons_append]
      unfold mapDelete
      rw [if_neg (hne (k', w) (by simp)), ih (fun p hp => hne p (by simp [hp]))]
      rfl

lemma qty_middle (m1 m2 : List (String × MineralWithQuantity)) (k : String)
    (v : MineralWithQuantity) (n : String) :
    qtyByName ((m1 ++ (k, v) :: m2).map Prod.snd) n
      = (if v.mineral.name = n then v.quantity else 0)
        + qtyByName ((m1 ++ m2).map Prod.snd) n := by
  simp only [List.map_append, List.map_cons, qtyByName_append, qtyByName_cons]
  omega

lemma qty_sides_zero {m1 m2 : List (String × MineralWithQuantity)} {k : String}
    (hne1 : ∀ p ∈ m1, p.1 ≠ k) (hne2 : ∀ p ∈ m2, p.1 ≠ k)
    (hcoh : ∀ p ∈ m1 ++ m2, p.2.mineral.name = p.1) :
    qtyByName ((m1 ++ m2).map Prod.snd) k = 0 := by
  refine qtyByName_eq_zero ?_
  intro e he
  obtain ⟨p, hp, rfl⟩ := List.mem_map.mp he
  rw [hcoh p hp]
  rcases List.mem_append.mp hp with hp | hp
  · exact hne1 p hp
  · exact hne2 p hp

lemma mapGet_some_qty {m : List (String × MineralWithQuantity)} {k : String}
    {v : MineralWithQuantity}
    (hkeys : (m.map Prod.fst).Nodup)
    (hcoh : ∀ p ∈ m, p.2.mineral.name = p.1)
    (hget : mapGet m k = some v) :
    qtyByName (m.map Prod.snd) k = v.quantity := by
  obtain ⟨m1, m2, hm, hne1, _⟩ := mapGet_decomp hget
  have hv : v.mineral.name = k := hcoh (k, v) (by rw [hm]; simp)
  have hne2 : ∀ p ∈ m2, p.1 ≠ k := by
    intro p hp
    rw [hm, List.map_append, List.map_cons] at hkeys
    have h2 := (List.nodup_cons.mp hkeys.of_append_right).1
    intro he
    exact h2 (List.mem_map.mpr ⟨p, hp, by rw [he]⟩)
  have hcoh12 : ∀ p ∈ m1 ++ m2, p.2.mineral.name = p.1 := by
    intro p hp
    refine hcoh p ?_
    rw [hm]
    rcases List.mem_append.mp hp with hp | hp
    · exact List.mem_append.mpr (Or.inl hp)
    · exact List.mem_append.mpr (Or.inr (by simp [hp]))
  rw [hm, qty_middle, if_pos hv, qty_sides_zero hne1 hne2 hcoh12]
  omega

lemma updateSubtract_qty {m : List (String × MineralWithQuantity)} {u : MineralWithQuantity}
    (hkeys : (m.map Prod.fst).Nodup)
    (hcoh : ∀ p ∈ m, p.2.mineral.name = p.1)
    (hle : u.quantity ≤ qtyByName (m.map Prod.snd) u.mineral.name) :
    ((updateSubtract m u).map Prod.fst).Nodup ∧
    (∀ p ∈ updateSubtract m u, p.2.mineral.name = p.1) ∧
    (∀ n, qtyByName ((updateSubtract m u).map Prod.snd) n
        = qtyByName (m.map Prod.snd) n
          - (if u.mineral.name = n then u.quantity else 0)) := by
  cases hget : mapGet m u.mineral.name with
  | none =>
      rw [updateSubtract_get_none hget]
      have hz : qtyByName (m.map Prod.snd) u.mineral.name = 0 := by
        refine qtyByName_eq_zero ?_
        intro e he
        obtain ⟨p, hp, rfl⟩ := List.mem_map.mp he
        rw [hcoh p hp]
        exact mapGet_none_keys hget p hp
      have hu0 : u.quantity = 0 := by omega
      refine ⟨hkeys, hcoh, fun n => ?_⟩
      rw [hu0]
      split <;> omega
  | some current =>
      obtain ⟨m1, m2, hm, hne1, hset⟩ := mapGet_decomp hget
      have hvk : current.mineral.name = u.mineral.name :=
        hcoh (u.mineral.name, current) (mapGet_mem hget)
      have hne2 : ∀ p ∈ m2, p.1 ≠ u.mineral.name := by
        intro p hp
        rw [hm, List.map_append, List.map_cons] at hkeys
        have h2 := (List.nodup_cons.mp hkeys.of_append_right).1
        intro he
        exact h2 (List.mem_map.mpr ⟨p, hp, by rw [he]⟩)
      have hcoh12 : ∀ p ∈ m1 ++ m2, p.2.mineral.name = p.1 := by
        intro p hp
        refine hcoh p ?_
        rw [hm]
        rcases List.mem_append.mp hp with hp | hp
        · exact List.mem_append.mpr (Or.inl hp)
        · exact List.mem_append.mpr (Or.inr (by simp [hp]))
      have hkeys12 : ((m1 ++ m2).map Prod.fst).Nodup := by
        refine List.Nodup.sublist (List.Sublist.map _ ?_) (hm ▸ hkeys)
        exact (List.sublist_cons_self _ _).append_left m1
      have hqm : qtyByName (m.map Prod.snd) u.mineral.name = current.quantity :=
        mapGet_some_qty hkeys hcoh hget
      have hqn : ∀ n, qtyByName (m.map Prod.snd) n
          = (if u.mineral.name = n then current.quantity else 0)
            + qtyByName ((m1 ++ m2).map Prod.snd) n := by
        intro n
        rw [hm, qty_middle]
        congr 1
        rw [hvk]
      rw [updateSubtract_get_some hget]
      split
      · next hdel =>
          rw [show mapDelete m u.mineral.name = m1 ++ m2 from by
            rw [hm]; exact mapDelete_decomp m2 current hne1]
          refine ⟨hkeys12, fun p hp => hcoh12 p hp, fun n => ?_⟩
          rw [hqn n]
          by_cases h : u.mineral.name = n
          · rw [if_pos h, if_pos h]
            have hq0 : qtyByName ((m1 ++ m2).map Prod.snd) n = 0 := by
              rw [← h]
              exact qty_sides_zero hne1 hne2 hcoh12
            omega
          · rw [if_neg h, if_neg h]
            omega
      · next hdel =>
          rw [hset]
          have hnew : ({ current with quantity := current.quantity - u.quantity }
              : MineralWithQuantity).mineral.name = u.mineral.name := hvk
          have hnewq : ({ current with quantity := current.quantity - u.quantity }
              : MineralWithQuantity).quantity = current.quantity - u.quantity := rfl
          have hsetkeys : ((m1 ++ (u.mineral.name,
                ({ current with quantity := current.quantity - u.quantity }
                  : MineralWithQuantity)) :: m2).map Prod.fst).Nodup := by
            have he : (m1 ++ (u.mineral.name,
                ({ current with quantity := current.quantity - u.quantity }
                  : MineralWithQuantity)) :: m2).map Prod.fst
                = m.map Prod.fst := by
              rw [hm]
              simp [List.map_append]
            rw [he]
            exact hkeys
          refine ⟨hsetkeys, ?_, fun n => ?_⟩
          · intro p hp
            rcases List.mem_append.mp hp with hp | hp
            · exact hcoh12 p (List.mem_append.mpr (Or.inl hp))
            · rcases List.mem_cons.mp hp with rfl | hp
              · exact hvk
              · exact hcoh12 p (List.mem_append.mpr (Or.inr hp))
          · rw [qty_middle, hqn n, hnew, hnewq]
            by_cases h : u.mineral.name = n
            · rw [if_pos h, if_pos h, if_pos h]
              omega
            · rw [if_neg h, if_neg h, if_neg h]
              omega

lemma consolidateStep_qty {m : List (String × MineralWithQuantity)} {u : MineralWithQuantity}
    (hkeys : (m.map Prod.fst).Nodup)
    (hcoh : ∀ p ∈ m, p.2.mineral.name = p.1) :
    (((consolidateStep m u).map Prod.fst).Nodup) ∧
    (∀ p ∈ consolidateStep m u, p.2.mineral.name = p.1) ∧
    (∀ n, qtyByName ((consolidateStep m u).map Prod.snd) n
        = qtyByName (m.map Prod.snd) n
          + (if u.mineral.name = n then u.quantity else 0)) := by
  cases hget : mapGet m u.mineral.name with
  | none =>
      rw [consolidateStep_get_none hget, mapGet_none_mapSet hget]
      have hfresh : u.mineral.name ∉ m.map Prod.fst := by
        intro hmem
        obtain ⟨p, hp, he⟩ := List.mem_map.mp hmem
        exact mapGet_none_keys hget p hp he
      refine ⟨?_, ?_, fun n => ?_⟩
      · rw [List.map_append, List.map_cons, List.map_nil]
        exact (List.perm_append_singleton _ _).nodup_iff.mpr
          (List.nodup_cons.mpr ⟨by simpa using hfresh, hkeys⟩)
      · intro p hp
        rcases List.mem_append.mp hp with hp | hp
        · exact hcoh p hp
        · rw [List.mem_singleton.mp hp]
      · rw [List.map_append, qtyByName_append]
        simp [qtyByName_cons, qtyByName_nil]
  | some existing =>
      obtain ⟨m1, m2, hm, hne1, hset⟩ := mapGet_decomp hget
      have hvk : existing.mineral.name = u.mineral.name :=
        hcoh (u.mineral.name, existing) (mapGet_mem hget)
      have hne2 : ∀ p ∈ m2, p.1 ≠ u.mineral.name := by
        intro p hp
        rw [hm, List.map_append, List.map_cons] at hkeys
        have h2 := (List.nodup_cons.mp hkeys.of_append_right).1
        intro he
        exact h2 (List.mem_map.mpr ⟨p, hp, by rw [he]⟩)
      have hcoh12 : ∀ p ∈ m1 ++ m2, p.2.mineral.name = p.1 := by
        intro p hp
        refine hcoh p ?_
        rw [hm]
        rcases List.mem_append.mp hp with hp | hp
        · exact List.mem_append.mpr (Or.inl hp)
        · exact List.mem_append.mpr (Or.inr (by simp [hp]))
      have hqn : ∀ n, qtyByName (m.map Prod.snd) n
          = (if u.mineral.name = n then existing.quantity else 0)
            + qtyByName ((m1 ++ m2).map Prod.snd) n := by
        intro n
        rw [hm, qty_middle]
        congr 1
        rw [hvk]
      rw [consolidateStep_get_some hget, hset]
      have hnew : ({ existing with quantity := existing.quantity + u.quantity }
          : MineralWithQuantity).mineral.name = u.mineral.name := hvk
      have hnewq : ({ existing with quantity := existing.quantity + u.quantity }
          : MineralWithQuantity).quantity = existing.quantity + u.quantity := rfl
      have hsetkeys : ((m1 ++ (u.mineral.name,
            ({ existing with quantity := existing.quantity + u.quantity }
              : MineralWithQuantity)) :: m2).map Prod.fst).Nodup := by
        have he : (m1 ++ (u.mineral.name,
            ({ existing with quantity := existing.quantity + u.quantity }
              : MineralWithQuantity)) :: m2).map Prod.fst
            = m.map Prod.fst := by
          rw [hm]
          simp [List.map_append]
        rw [he]
        exact hkeys
      refine ⟨hsetkeys, ?_, fun n => ?_⟩
      · intro p hp
        rcases List.mem_append.mp hp with hp | hp
        · exact hcoh12 p (List.mem_append.mpr (Or.inl hp))
        · rcases List.mem_cons.mp hp with rfl | hp
          · exact hvk
          · exact hcoh12 p (List.mem_append.mpr (Or.inr hp))
      · rw [qty_middle, hqn n, hnew, hnewq]
        by_cases h : u.mineral.name = n
        · rw [if_pos h, if_pos h, if_pos h]
          omega
        · rw [if_neg h, if_neg h, if_neg h]
          omega

lemma foldl_consolidateStep_qty :
    ∀ (l : List MineralWithQuantity) (m : List (String × MineralWithQuantity)),
      (m.map Prod.fst).Nodup → (∀ p ∈ m, p.2.mineral.name = p.1) →
      ∀ n, qtyByName ((l.foldl consolidateStep m).map Prod.snd) n
          = qtyByName (m.map Prod.snd) n + qtyByName l n := by
  intro l
  induction l with
  | nil => intro m _ _ n; simp [qtyByName_nil]
  | cons u rest ih =>
      intro m hkeys hcoh n
      rw [List.foldl_cons]
      obtain ⟨hk', hc', hq'⟩ := @consolidateStep_qty m u hkeys hcoh
      rw [ih _ hk' hc' n, hq' n, qtyByName_cons]
      omega

lemma consolidate_mem_qty (l : List MineralWithQuantity) :
    ∀ e ∈ consolidateMinerals l, e.quantity ≤ qtyByName l e.mineral.name := by
  unfold consolidateMinerals
  split
  · intro e he
    exact qtyByName_le_of_mem he
  · intro e he
    have hq := foldl_consolidateStep_qty l [] (by simp) (by simp) e.mineral.name
    calc e.quantity ≤ qtyByName ((l.foldl consolidateStep []).map Prod.snd) e.mineral.name :=
          qtyByName_le_of_mem he
      _ = qtyByName l e.mineral.name := by rw [hq]; simp [qtyByName_nil]

lemma foldl_updateSubtract_qty :
    ∀ (used : List MineralWithQuantity) (m : List (String × MineralWithQuantity)),
      (m.map Prod.fst).Nodup → (∀ p ∈ m, p.2.mineral.name = p.1) →
      (∀ n, qtyByName used n ≤ qtyByName (m.map Prod.snd) n) →
      (((used.foldl updateSubtract m).map Prod.fst).Nodup) ∧
      (∀ p ∈ used.foldl updateSubtract m, p.2.mineral.name = p.1) ∧
      ∀ n, qtyByName used n
          + qtyByName ((used.foldl updateSubtract m).map Prod.snd) n
        ≤ qtyByName (m.map Prod.snd) n := by
  intro used
  induction used with
  | nil => intro m hk hc _; exact ⟨hk, hc, fun n => by simp [qtyByName_nil]⟩
  | cons u rest ih =>
      intro m hkeys hcoh hle
      rw [List.foldl_cons]
      obtain ⟨hk', hc', hq'⟩ := @updateSubtract_qty m u hkeys hcoh (by
        have := hle u.mineral.name
        rw [qtyByName_cons, if_pos rfl] at this
        omega)
      have hle' : ∀ n', qtyByName rest n'
          ≤ qtyByName ((updateSubtract m u).map Prod.snd) n' := by
        intro n'
        rw [hq' n']
        have := hle n'
        rw [qtyByName_cons] at this
        omega
      obtain ⟨hk2, hc2, hq2⟩ := ih _ hk' hc' hle'
      refine ⟨hk2, hc2, fun n => ?_⟩
      have hrec := hq2 n
      rw [hq' n] at hrec
      have := hle n
      rw [qtyByName_cons] at this ⊢
      omega

lemma buildMap_qty :
    ∀ (cur : List MineralWithQuantity) (acc : List (String × MineralWithQuantity)),
      (acc.map Prod.fst).Nodup → (∀ p ∈ acc, p.2.mineral.name = p.1) →
      (∀ e ∈ cur, e.mineral.name ∉ acc.map Prod.fst) →
      (cur.map (fun e => e.mineral.name)).Nodup →
      (((cur.foldl (fun acc m => mapSet acc m.mineral.name m) acc).map Prod.fst).Nodup) ∧
      (∀ p ∈ cur.foldl (fun acc m => mapSet acc m.mineral.name m) acc,
          p.2.mineral.name = p.1) ∧
      ∀ n, qtyByName ((cur.foldl (fun acc m => mapSet acc m.mineral.name m) acc).map
            Prod.snd) n
          = qtyByName (acc.map Prod.snd) n + qtyByName cur n := by
  intro cur
  induction cur with
  | nil => intro acc hk hc _ _; exact ⟨hk, hc, fun n => by simp [qtyByName_nil]⟩
  | cons e rest ih =>
      intro acc hk hc hfresh hnd
      rw [List.foldl_cons]
      have hget : mapGet acc e.mineral.name = none :=
        mapGet_of_not_mem_keys (hfresh e (by simp))
      rw [mapGet_none_mapSet hget]
      have hk' : ((acc ++ [(e.mineral.name, e)]).map Prod.fst).Nodup := by
        rw [List.map_append, List.map_cons, List.map_nil]
        exact (List.perm_append_singleton _ _).nodup_iff.mpr
          (List.nodup_cons.mpr ⟨hfresh e (by simp), hk⟩)
      have hc' : ∀ p ∈ acc ++ [(e.mineral.name, e)], p.2.mineral.name = p.1 := by
        intro p hp
        rcases List.mem_append.mp hp with hp | hp
        · exact hc p hp
        · rw [List.mem_singleton.mp hp]
      have hfresh' : ∀ x ∈ rest, x.mineral.name ∉ (acc ++ [(e.mineral.name, e)]).map
          Prod.fst := by
        intro x hx
        rw [List.map_append, List.map_cons, List.map_nil]
        intro hmem
        rcases List.mem_append.mp hmem with hmem | hmem
        · exact hfresh x (by simp [hx]) hmem
        · have hxname : x.mineral.name = e.mineral.name := List.mem_singleton.mp hmem
          have := (List.nodup_cons.mp hnd).1
          exact this (List.mem_map.mpr ⟨x, hx, hxname⟩)
      obtain ⟨hk2, hc2, hq2⟩ := ih _ hk' hc' hfresh' (List.nodup_cons.mp hnd).2
      refine ⟨hk2, hc2, fun n => ?_⟩
      rw [hq2 n, List.map_append, qtyByName_append, qtyByName_cons]
      simp only [List.map_cons, List.map_nil, qtyByName_cons, qtyByName_nil]
      omega

lemma updateAvailableMinerals_qty (cur used : List MineralWithQuantity)
    (hnd : (cur.map (fun e => e.mineral.name)).Nodup)
    (hle : ∀ n, qtyByName used n ≤ qtyByName cur n) :
    ((updateAvailableMinerals cur used).map (fun e => e.mineral.name)).Nodup ∧
    ∀ n, qtyByName used n + qtyByName (updateAvailableMinerals cur used) n
        ≤ qtyByName cur n := by
  obtain ⟨hk0, hc0, hq0⟩ := buildMap_qty cur [] (by simp) (by simp) (by simp) hnd
  have hq0' : ∀ n, qtyByName ((cur.foldl (fun acc m => mapSet acc m.mineral.name m)
      []).map Prod.snd) n = qtyByName cur n := by
    intro n
    rw [hq0 n]
    simp [qtyByName_nil]
  obtain ⟨hkf, hcf, hqf⟩ := foldl_updateSubtract_qty used _ hk0 hc0
      (fun n => by rw [hq0' n]; exact hle n)
  have hbody : updateAvailableMinerals cur used
      = (used.foldl updateSubtract
          (cur.foldl (fun acc m => mapSet acc m.mineral.name m) [])).map Prod.snd := rfl
  rw [hbody]
  constructor
  · rw [values_names hcf]
    exact hkf
  · intro n
    have h := hqf n
    rw [hq0' n] at h
    exact h

lemma comboConcat_types {targetMb : ℚ} {avail : List MineralWithQuantity}
    {comps : List AlloyComponent} {tail : List MineralWithQuantity}
    (hcc : ComboConcat targetMb (groupAndSortMinerals avail) comps tail) :
    ∀ e ∈ tail, ∃ g ∈ avail, e.mineral = g.mineral ∧
      strLower g.mineral.produces ∈ comps.map (fun cp => strLower cp.mineral) := by
  induction hcc with
  | nil => simp
  | cons component hmem hcc ih =>
      intro e he
      rcases List.mem_append.mp he with he | he
      · obtain ⟨g, hg, hge, _, _⟩ := (generateComponentCombinations_subsel hmem).mem e he
        obtain ⟨hgavail, hgt⟩ := group_mem_subset hg
        exact ⟨g, hgavail, hge, by rw [hgt]; simp⟩
      · obtain ⟨g, hg, hge, hmt⟩ := ih e he
        exact ⟨g, hg, hge, by simp [hmt]⟩

lemma group_names_nodup {avail : List MineralWithQuantity} {t : String}
    (hnd : (avail.map (fun e => e.mineral.name)).Nodup) :
    (((mapGet (groupAndSortMinerals avail) t).getD []).map
        (fun e => e.mineral.name)).Nodup := by
  refine ((group_perm avail t).map (fun e => e.mineral.name)).nodup_iff.mpr ?_
  exact List.Nodup.sublist (List.Sublist.map _ (List.filter_sublist _)) hnd

lemma comboConcat_names_nodup {targetMb : ℚ} {avail : List MineralWithQuantity}
    {comps : List AlloyComponent} {tail : List MineralWithQuantity}
    (hcc : ComboConcat targetMb (groupAndSortMinerals avail) comps tail)
    (hnd : (avail.map (fun e => e.mineral.name)).Nodup)
    (htypes : (comps.map (fun cp => strLower cp.mineral)).Nodup) :
    (tail.map (fun e => e.mineral.name)).Nodup := by
  induction hcc with
  | nil => simp
  | cons component hmem hcc ih =>
      rw [List.map_cons] at htypes
      obtain ⟨hhead, hrest⟩ := List.nodup_cons.mp htypes
      rw [List.map_append, List.nodup_append]
      refine ⟨?_, ih hrest, ?_⟩
      · exact List.Nodup.sublist
          (generateComponentCombinations_subsel hmem).names_sublist
          (group_names_nodup hnd)
      · intro x hx1 hx2
        obtain ⟨u, hu, hux⟩ := List.mem_map.mp hx1
        obtain ⟨w, hw, hwx⟩ := List.mem_map.mp hx2
        obtain ⟨g1, hg1, hum, _, _⟩ := (generateComponentCombinations_subsel hmem).mem u hu
        obtain ⟨hg1avail, hg1t⟩ := group_mem_subset hg1
        obtain ⟨g2, hg2avail, hwm, hg2t⟩ := comboConcat_types hcc w hw
        have heq : g1.mineral.name = g2.mineral.name := by
          rw [← hum, ← hwm, hux, hwx]
        have hgg : g1 = g2 := List.inj_on_of_nodup_map hnd hg1avail hg2avail heq
        rw [hgg] at hg1t
        rw [hg1t] at hg2t
        exact hhead hg2t

lemma qtyByName_nodup_le {tail avail : List MineralWithQuantity}
    (hnd : (tail.map (fun e => e.mineral.name)).Nodup)
    (hdon : ∀ u ∈ tail, ∃ g ∈ avail,
        u.mineral.name = g.mineral.name ∧ u.quantity ≤ g.quantity) :
    ∀ n, qtyByName tail n ≤ qtyByName avail n := by
  induction tail with
  | nil => intro n; simp [qtyByName_nil]
  | cons u rest ih =>
      intro n
      rw [List.map_cons] at hnd
      obtain ⟨hhead, hrest⟩ := List.nodup_cons.mp hnd
      rw [qtyByName_cons]
      by_cases h : u.mineral.name = n
      · have hz : qtyByName rest n = 0 := by
          refine qtyByName_eq_zero ?_
          intro e he hen
          exact hhead (List.mem_map.mpr ⟨e, he, by rw [hen, ← h]⟩)
        obtain ⟨g, hg, hgn, hgq⟩ := hdon u (by simp)
        have hb := qtyByName_le_of_mem hg
        rw [← hgn, h] at hb
        rw [if_pos h, hz]
        omega
      · rw [if_neg h]
        have := ih hrest (fun v hv => hdon v (by simp [hv])) n
        omega

lemma foldr_min_le {l : List ℕ} (a : ℕ) {x : ℕ} (hx : x ∈ l) : l.foldr min a ≤ x := by
  induction l with
  | nil => simp at hx
  | cons y rest ih =>
      rw [List.foldr_cons]
      rcases List.mem_cons.mp hx with rfl | hx
      · exact min_le_left _ _
      · exact le_trans (min_le_right _ _) (ih hx)

lemma calculateViableBatchScale_le {batch : AlloyProductionResult}
    {avail : List MineralWithQuantity} {u : MineralWithQuantity}
    (hu : u ∈ batch.usedMinerals) {g0 : MineralWithQuantity}
    (hf : avail.find? (fun m => m.mineral.name == u.mineral.name) = some g0)
    (hq : u.quantity ≠ 0) :
    calculateViableBatchScale batch avail * u.quantity ≤ g0.quantity := by
  unfold calculateViableBatchScale
  refine (Nat.le_div_iff_mul_le (Nat.pos_of_ne_zero hq)).mp
    (foldr_min_le maxSafeInteger ?_)
  refine List.mem_map.mpr ⟨u, hu, ?_⟩
  simp only [hf]
  rw [if_neg hq]

/-- Per-name quantity bound for the scaled batch appended by one loop
iteration: with unique stock names and pairwise distinct component types,
a batch never uses more of a mineral name than the snapshot offers. -/
lemma scaled_qty_le {components : List AlloyComponent}
    {avail : List MineralWithQuantity} {c : ℕ}
    (hsucc : (calculateSingleBatch (c : ℚ) components avail).success = true)
    (hnd : (avail.map (fun e => e.mineral.name)).Nodup)
    (htypes : (components.map (fun cp => strLower cp.mineral)).Nodup) :
    ∀ n, qtyByName (scaledBatchOf components avail c).usedMinerals n
        ≤ qtyByName avail n := by
  obtain ⟨tail, hused, hcc, _, _⟩ := calculateSingleBatch_success hsucc
  have htypes' : ((sortComponentsByMin components).map
      (fun cp => strLower cp.mineral)).Nodup :=
    (((sortComponentsByMin_perm components).map _).nodup_iff).mpr htypes
  have hndtail := comboConcat_names_nodup hcc hnd htypes'
  have hdon := comboConcat_mem hcc
  rw [← hused] at hndtail hdon
  intro n
  unfold scaledBatchOf
  split
  · next hs =>
      unfold scaleBatch
      simp only
      refine qtyByName_nodup_le ?_ ?_ n
      · simpa [List.map_map, Function.comp_def] using hndtail
      · intro u' hu'
        obtain ⟨u, hu, rfl⟩ := List.mem_map.mp hu'
        obtain ⟨g, hg, hum, hq1, hq2⟩ := hdon u hu
        cases hf : avail.find? (fun m => m.mineral.name == u.mineral.name) with
        | none =>
            exact absurd (by rw [hum]; exact beq_self_eq_true _)
              (List.find?_eq_none.mp hf g hg)
        | some g0 =>
            have hg0 : g0 ∈ avail := List.mem_of_find?_eq_some hf
            have hg0n : g0.mineral.name = u.mineral.name := by
              simpa using List.find?_some hf
            have hq : u.quantity ≠ 0 := by omega
            have hbound := calculateViableBatchScale_le hu hf hq
            refine ⟨g0, hg0, hg0n.symm, ?_⟩
            show u.quantity
                * calculateViableBatchScale (calculateSingleBatch (c : ℚ) components avail)
                    avail
              ≤ g0.quantity
            rw [Nat.mul_comm]
            exact hbound
  · refine qtyByName_nodup_le hndtail ?_ n
    intro u hu
    obtain ⟨g, hg, hum, _, hq2⟩ := hdon u hu
    exact ⟨g, hg, by rw [hum], hq2⟩

/-- C4 counterexample: a successful solve whose consolidated allocation uses
more of a mineral identity than the stock holds.  Two components share the
produced type copper, the per-component searches each select the single
copper entry, and neither the validation nor the scale guard rejects the
doubled usage. -/
theorem c4_cex :
    (calculateAlloy 144
        (Alloy.mk "Br" [⟨"copper", 20, 60⟩, ⟨"copper", 20, 60⟩, ⟨"tin", 45, 55⟩])
        [⟨⟨"A", "copper", 36⟩, 1⟩, ⟨⟨"T", "tin", 72⟩, 1⟩, ⟨⟨"I", "iron", 100⟩, 1⟩]
        0 0).success = true ∧
    ¬ (∀ e ∈ (calculateAlloy 144
          (Alloy.mk "Br" [⟨"copper", 20, 60⟩, ⟨"copper", 20, 60⟩, ⟨"tin", 45, 55⟩])
          [⟨⟨"A", "copper", 36⟩, 1⟩, ⟨⟨"T", "tin", 72⟩, 1⟩, ⟨⟨"I", "iron", 100⟩, 1⟩]
          0 0).usedMinerals,
        e.quantity ≤ qtyByName
          [⟨⟨"A", "copper", 36⟩, 1⟩, ⟨⟨"T", "tin", 72⟩, 1⟩, ⟨⟨"I", "iron", 100⟩, 1⟩]
          e.mineral.name) := by
  with_unfolding_all decide

/-- C4 amended: when the stock's mineral names are pairwise distinct and the
alloy spec's component types are pairwise distinct (case-insensitively), every
successful solve's consolidated allocation stays within the original stock:
each returned entry's quantity is at most the total stock quantity under that
mineral name.  With a repeated component type the bound fails, because each
component's search draws from the full availability independently. -/
theorem c4_amended (targetMb : ℚ) (targetAlloy : Alloy) (stock : List MineralWithQuantity)
    (t1 t2 : ℚ)
    (hnames : (stock.map (fun e => e.mineral.name)).Nodup)
    (htypes : (targetAlloy.components.map (fun cp => strLower cp.mineral)).Nodup)
    (h : (calculateAlloy targetMb targetAlloy stock t1 t2).success = true) :
    ∀ e ∈ (calculateAlloy targetMb targetAlloy stock t1 t2).usedMinerals,
      e.quantity ≤ qtyByName stock e.mineral.name := by
  obtain ⟨hused, hfvc⟩ := calculateAlloy_success_shape h
  obtain ⟨husedf, _⟩ := findValidCombinationBatched_success hfvc
  have hinv := batchLoopF_invariant targetAlloy.components
      (fun brs avail =>
        ((avail.map (fun e => e.mineral.name)).Nodup) ∧
        ∀ n, qtyByName ((brs.map (fun b => b.usedMinerals)).flatten) n
            + qtyByName avail n ≤ qtyByName stock n)
      (fun brs avail c _hc hsucc hI => by
        obtain ⟨hnda, hledger⟩ := hI
        have hq := scaled_qty_le hsucc hnda htypes
        obtain ⟨hnd', hupd⟩ := updateAvailableMinerals_qty avail
          (scaledBatchOf targetAlloy.components avail c).usedMinerals hnda hq
        refine ⟨hnd', fun n => ?_⟩
        rw [List.map_append, List.flatten_append, qtyByName_append,
          List.map_cons, List.map_nil, List.flatten_cons, List.flatten_nil,
          List.append_nil]
        have h1 := hupd n
        have h2 := hledger n
        omega)
      (MAX_BATCH_MB + 1)
      { batchResults := [], remainingMb := targetMb, availableMinerals := stock,
        batchRunCount := 0, batchAcceptCount := 0, batchDeclineCount := 0,
        batchScaleEfficiency := 0, batchBacktrackPotential := 0, attempted := [] }
      MAX_BATCH_MB
      ⟨hnames, fun n => by simp [qtyByName_nil]⟩
  have hbrm : (batchLoopRun targetAlloy.components targetMb stock).batchResults
      = (batchLoopF targetAlloy.components (MAX_BATCH_MB + 1)
          { batchResults := [], remainingMb := targetMb, availableMinerals := stock,
            batchRunCount := 0, batchAcceptCount := 0, batchDeclineCount := 0,
            batchScaleEfficiency := 0, batchBacktrackPotential := 0, attempted := [] }
          MAX_BATCH_MB).batchResults := rfl
  obtain ⟨_, hledger⟩ := hinv
  rw [← hbrm] at hledger
  set brs := (batchLoopRun targetAlloy.components targetMb stock).batchResults with hbrsdef
  rw [hused, husedf]
  unfold getFinalMinerals
  intro e he
  have h1 := consolidate_mem_qty (brs.map (fun b => b.usedMinerals)).flatten e he
  have h2 := hledger e.mineral.name
  omega

/-- C4 witness: a concrete unique-name, distinct-type success on which the
amended stock bound is instantiated. -/
theorem c4_witness :
    (([⟨⟨"M", "x", 144⟩, 2⟩] : List MineralWithQuantity).map
        (fun e => e.mineral.name)).Nodup ∧
    ((Alloy.mk "X" [⟨"x", 100, 100⟩]).components.map
        (fun cp => strLower cp.mineral)).Nodup ∧
    (calculateAlloy 144 (Alloy.mk "X" [⟨"x", 100, 100⟩])
        [⟨⟨"M", "x", 144⟩, 2⟩] 0 0).success = true ∧
    ∀ e ∈ (calculateAlloy 144 (Alloy.mk "X" [⟨"x", 100, 100⟩])
        [⟨⟨"M", "x", 144⟩, 2⟩] 0 0).usedMinerals,
      e.quantity ≤ qtyByName [⟨⟨"M", "x", 144⟩, 2⟩] e.mineral.name :=
  ⟨by with_unfolding_all decide, by with_unfolding_all decide,
   by with_unfolding_all decide,
   c4_amended 144 (Alloy.mk "X" [⟨"x", 100, 100⟩]) [⟨⟨"M", "x", 144⟩, 2⟩] 0 0
     (by with_unfolding_all decide)
     (by with_unfolding_all decide)
     (by with_unfolding_all decide)⟩

end TFG
